import Mathlib

/-!
Identifier codec and generator of autils (`uuid.go`).

Shallow embedding of the 12-byte identifier of `uuid.go`, its base32 text
codec (`encode`, `decode`, `UnmarshalText`), the generator `GetUUID` and the
field accessors, followed by theorems about them.

Conventions of the embedding
* a Go `byte` is a `Nat` below 256; every `uint8` left shift is truncated
  explicitly (`shl8`), right shifts, `&` and `|` cannot leave the byte range;
* `[12]byte`, `[]byte` and `string` are `List Nat` (a Go string is its byte
  sequence); indexing is `List.getD _ _ 0`, in range whenever the Go code does
  not fault;
* package-level variables (`objectIDCounter`, `machineID`, `pid`) form an
  explicit `State` that `GetUUID` threads; the wall-clock second is an input;
* a method with a pointer receiver returns the new receiver value together
  with its error result.
-/

namespace Autils

/-! ## Constants -/

/-- Length of the text form (`encodedLen`). -/
def encodedLen : Nat := 20

/-- Length of the binary form (`rawLen`). -/
def rawLen : Nat := 12

/-- The alphabet string of `uuid.go`. -/
def encodingString : String := "0123456789abcdefghijklmnopqrstuv"

/-- Bytes of the alphabet constant `encoding`. -/
def encoding : List Nat :=
  [48, 49, 50, 51, 52, 53, 54, 55, 56, 57,
   97, 98, 99, 100, 101, 102, 103, 104, 105, 106, 107,
   108, 109, 110, 111, 112, 113, 114, 115, 116, 117, 118]

/-- An identifier: `type ID [rawLen]byte`. -/
abbrev ID := List Nat

/-- Well-formed identifier: exactly twelve bytes. -/
def ID.wf (id : ID) : Prop := id.length = rawLen ∧ ∀ x ∈ id, x < 256

instance (id : ID) : Decidable (ID.wf id) := by
  unfold ID.wf; infer_instance

/-- A Go byte slice or string: every element is a byte. -/
def isBytes (s : List Nat) : Prop := ∀ c ∈ s, c < 256

instance (s : List Nat) : Decidable (isBytes s) := by
  unfold isBytes; infer_instance

/-- The zero value `ID{}`. -/
def zeroID : ID := List.replicate rawLen 0

/-- Error results of the package. -/
inductive Error where
  | ErrInvalidID
  | unsupportedType
  deriving DecidableEq, Repr

/-! ## Byte operations -/

/-- Left shift on `uint8`: the result is truncated to eight bits. -/
def shl8 (x k : Nat) : Nat := (x <<< k) % 256

/-- Array read `a[i]`. -/
def at_ (a : List Nat) (i : Nat) : Nat := a.getD i 0

/-! ## The reverse table `dec` and `init` -/

/-- State of `dec` after the first loop of `init`: 256 entries `0xFF`. -/
def decFill : List Nat := List.replicate 256 0xFF

/-- State of `dec` after `init`: the second loop stores `byte(i)` at
`encoding[i]` for `i = 0 .. len(encoding) - 1`. -/
def decTable : List Nat :=
  (List.range encoding.length).foldl
    (fun d i => d.set (at_ encoding i) (i % 256)) decFill

/-- Table read `dec[c]`. -/
def dec (c : Nat) : Nat := at_ decTable c

/-! ## encode / decode -/

/-- Table read `encoding[i]`. -/
def enc (i : Nat) : Nat := at_ encoding i

/-- The twenty table indices computed by `encode`, in order. -/
def encodeIdx (id : List Nat) : List Nat :=
  [ at_ id 0 >>> 3,
    ((at_ id 1 >>> 6) &&& 0x1F) ||| (shl8 (at_ id 0) 2 &&& 0x1F),
    (at_ id 1 >>> 1) &&& 0x1F,
    ((at_ id 2 >>> 4) &&& 0x1F) ||| (shl8 (at_ id 1) 4 &&& 0x1F),
    (at_ id 3 >>> 7) ||| (shl8 (at_ id 2) 1 &&& 0x1F),
    (at_ id 3 >>> 2) &&& 0x1F,
    (at_ id 4 >>> 5) ||| (shl8 (at_ id 3) 3 &&& 0x1F),
    at_ id 4 &&& 0x1F,
    at_ id 5 >>> 3,
    ((at_ id 6 >>> 6) &&& 0x1F) ||| (shl8 (at_ id 5) 2 &&& 0x1F),
    (at_ id 6 >>> 1) &&& 0x1F,
    ((at_ id 7 >>> 4) &&& 0x1F) ||| (shl8 (at_ id 6) 4 &&& 0x1F),
    (at_ id 8 >>> 7) ||| (shl8 (at_ id 7) 1 &&& 0x1F),
    (at_ id 8 >>> 2) &&& 0x1F,
    (at_ id 9 >>> 5) ||| (shl8 (at_ id 8) 3 &&& 0x1F),
    at_ id 9 &&& 0x1F,
    at_ id 10 >>> 3,
    ((at_ id 11 >>> 6) &&& 0x1F) ||| (shl8 (at_ id 10) 2 &&& 0x1F),
    (at_ id 11 >>> 1) &&& 0x1F,
    shl8 (at_ id 11) 4 &&& 0x1F ]

/-- Function `encode(dst, id)`: the resulting contents of `dst[0..19]`. -/
def encode (id : List Nat) : List Nat := (encodeIdx id).map enc

/-- Function `decode(id, src)`: the resulting contents of `id[0..11]`. -/
def decode (src : List Nat) : ID :=
  [ (shl8 (dec (at_ src 0)) 3) ||| (dec (at_ src 1) >>> 2),
    (shl8 (dec (at_ src 1)) 6) ||| (shl8 (dec (at_ src 2)) 1) ||| (dec (at_ src 3) >>> 4),
    (shl8 (dec (at_ src 3)) 4) ||| (dec (at_ src 4) >>> 1),
    (shl8 (dec (at_ src 4)) 7) ||| (shl8 (dec (at_ src 5)) 2) ||| (dec (at_ src 6) >>> 3),
    (shl8 (dec (at_ src 6)) 5) ||| dec (at_ src 7),
    (shl8 (dec (at_ src 8)) 3) ||| (dec (at_ src 9) >>> 2),
    (shl8 (dec (at_ src 9)) 6) ||| (shl8 (dec (at_ src 10)) 1) ||| (dec (at_ src 11) >>> 4),
    (shl8 (dec (at_ src 11)) 4) ||| (dec (at_ src 12) >>> 1),
    (shl8 (dec (at_ src 12)) 7) ||| (shl8 (dec (at_ src 13)) 2) ||| (dec (at_ src 14) >>> 3),
    (shl8 (dec (at_ src 14)) 5) ||| dec (at_ src 15),
    (shl8 (dec (at_ src 16)) 3) ||| (dec (at_ src 17) >>> 2),
    (shl8 (dec (at_ src 17)) 6) ||| (shl8 (dec (at_ src 18)) 1) ||| (dec (at_ src 19) >>> 4) ]

/-! ## Text marshalling -/

/-- Method `UUIDToString`. -/
def UUIDToString (id : ID) : List Nat := encode id

/-- Method `MarshalText`: the text and the (always nil) error. -/
def MarshalText (id : ID) : List Nat × Option Error := (encode id, none)

/-- The `range` loop of `UnmarshalText`: true when some character has
`dec[c] == 0xFF` (the loop returns `ErrInvalidID` at the first one). -/
def hasInvalidChar : List Nat → Bool
  | [] => false
  | c :: rest => if dec c = 0xFF then true else hasInvalidChar rest

/-- Method `UnmarshalText` on receiver `id`: new receiver value and error. -/
def UnmarshalText (id : ID) (text : List Nat) : ID × Option Error :=
  if text.length ≠ encodedLen then (id, some Error.ErrInvalidID)
  else if hasInvalidChar text then (id, some Error.ErrInvalidID)
  else (decode text, none)

/-- Function `UUIDFromString`. -/
def UUIDFromString (s : List Nat) : ID × Option Error :=
  UnmarshalText zeroID s

/-! ## Generator -/

/-- Package-level variables read and written by `GetUUID`. -/
structure State where
  /-- Shared `uint32` counter `objectIDCounter`. -/
  objectIDCounter : Nat
  /-- Cached machine fingerprint `machineID`, a byte slice of length 3. -/
  machineID : List Nat
  /-- Cached process id `pid`, a Go `int`. -/
  pid : Int
  deriving DecidableEq, Repr

/-- Well-formed package state: the counter is a `uint32` and `machineID`
holds three bytes. -/
def State.wf (s : State) : Prop :=
  s.objectIDCounter < 2 ^ 32 ∧ s.machineID.length = 3 ∧ isBytes s.machineID

instance (s : State) : Decidable (State.wf s) := by
  unfold State.wf; infer_instance

/-- Conversion `uint32(x)` of a signed integer. -/
def uint32OfInt (x : Int) : Nat := (x % 2 ^ 32).toNat

/-- Conversion `byte(x)` of a signed integer. -/
def byteOfInt (x : Int) : Nat := (x % 256).toNat

/-- Conversion `byte(x)` of an unsigned integer. -/
def byteOfNat (x : Nat) : Nat := x % 256

/-- Conversion `int32(x)` of a `uint32`. -/
def int32OfNat (x : Nat) : Int :=
  if x % 2 ^ 32 < 2 ^ 31 then ((x % 2 ^ 32 : Nat) : Int) else ((x % 2 ^ 32 : Nat) : Int) - 2 ^ 32

/-- Left shift on `uint32`. -/
def shl32 (x k : Nat) : Nat := (x <<< k) % 2 ^ 32

/-- Left shift on `uint16`. -/
def shl16 (x k : Nat) : Nat := (x <<< k) % 2 ^ 16

/-- Library function `binary.BigEndian.PutUint32(b, v)`. -/
def PutUint32 (b : List Nat) (v : Nat) : List Nat :=
  (((b.set 0 (byteOfNat (v >>> 24))).set 1 (byteOfNat (v >>> 16))).set 2
    (byteOfNat (v >>> 8))).set 3 (byteOfNat v)

/-- Library function `binary.BigEndian.Uint32(b)`. -/
def Uint32 (b : List Nat) : Nat :=
  at_ b 3 ||| shl32 (at_ b 2) 8 ||| shl32 (at_ b 1) 16 ||| shl32 (at_ b 0) 24

/-- Library function `binary.BigEndian.Uint16(b)`. -/
def Uint16 (b : List Nat) : Nat :=
  at_ b 1 ||| shl16 (at_ b 0) 8

/-- Slice expression `a[lo:hi]`. -/
def slice (a : List Nat) (lo hi : Nat) : List Nat := (a.drop lo).take (hi - lo)

/-- Function `GetUUID`, run at wall-clock second `now` (`time.Now().Unix()`)
in package state `s`: the identifier and the state after the call. -/
def GetUUID (now : Int) (s : State) : ID × State :=
  let id := zeroID
  let id := PutUint32 id (uint32OfInt now)
  let id := id.set 4 (at_ s.machineID 0)
  let id := id.set 5 (at_ s.machineID 1)
  let id := id.set 6 (at_ s.machineID 2)
  let id := id.set 7 (byteOfInt (s.pid >>> (8 : Nat)))
  let id := id.set 8 (byteOfInt s.pid)
  let i := (s.objectIDCounter + 1) % 2 ^ 32
  let id := id.set 9 (byteOfNat (i >>> 16))
  let id := id.set 10 (byteOfNat (i >>> 8))
  let id := id.set 11 (byteOfNat i)
  (id, { s with objectIDCounter := i })

/-- A run of consecutive `GetUUID` calls, one per wall-clock reading, in the
order in which their atomic increments are applied. -/
def GetUUIDs : List Int → State → List ID × State
  | [], s => ([], s)
  | t :: ts, s =>
    let r := GetUUID t s
    let rs := GetUUIDs ts r.2
    (r.1 :: rs.1, rs.2)

/-! ## Accessors -/

/-- Method `UUIDTime`: the Unix second handed to `time.Unix(secs, 0)`. -/
def UUIDTime (id : ID) : Int := ((Uint32 (slice id 0 4) : Nat) : Int)

/-- Method `UUIDMachine`. -/
def UUIDMachine (id : ID) : List Nat := slice id 4 7

/-- Method `UUIDPid`. -/
def UUIDPid (id : ID) : Nat := Uint16 (slice id 7 9)

/-- Method `UUIDCounter`. -/
def UUIDCounter (id : ID) : Int :=
  let b := slice id 9 12
  int32OfNat (shl32 (at_ b 0) 16 ||| shl32 (at_ b 1) 8 ||| at_ b 2)

/-! ## Reference bit slicing (from the specification) -/

/-- Bit `i` (most significant first) of the big-endian bit string of the
twelve bytes, extended by zero bits beyond position 95. -/
def refBit (b : List Nat) (i : Nat) : Nat :=
  if i < 96 then (at_ b (i / 8) / 2 ^ (7 - i % 8)) % 2 else 0

/-- The 5-bit number formed by bits `5k .. 5k+4` of the extended bit string. -/
def refGroup (b : List Nat) (k : Nat) : Nat :=
  refBit b (5 * k) * 16 + refBit b (5 * k + 1) * 8 + refBit b (5 * k + 2) * 4
    + refBit b (5 * k + 3) * 2 + refBit b (5 * k + 4)

/-- Big-endian value of a digit list in base `B`. -/
def beValue (B : Nat) : List Nat → Nat
  | [] => 0
  | d :: ds => d * B ^ ds.length + beValue B ds

/-- Bit `i` (most significant first) of the concatenation of the 5-bit
groups `v_0 v_1 ...`. -/
def groupBit (v : List Nat) (i : Nat) : Nat :=
  (at_ v (i / 5) / 2 ^ (4 - i % 5)) % 2

/-- Byte `j` of the concatenation of 5-bit groups: bits `8j .. 8j+7`. -/
def refByte (v : List Nat) (j : Nat) : Nat :=
  groupBit v (8 * j) * 128 + groupBit v (8 * j + 1) * 64 + groupBit v (8 * j + 2) * 32
    + groupBit v (8 * j + 3) * 16 + groupBit v (8 * j + 4) * 8 + groupBit v (8 * j + 5) * 4
    + groupBit v (8 * j + 6) * 2 + groupBit v (8 * j + 7)

/-- Position of a character in the alphabet (32 when it is absent). -/
def alphabetIndex (c : Nat) : Nat := encoding.indexOf c

/-! ## Counter seed -/

/-- Function `randInt`, given the outcome of `rand.Reader.Read(b)` on the
three-byte buffer: `none` is a read error (the function panics), `some b` the
buffer after a successful read. -/
def randInt (read : Option (List Nat)) : Option Nat :=
  match read with
  | none => none
  | some b => some (shl32 (at_ b 0) 16 ||| shl32 (at_ b 1) 8 ||| at_ b 2)

/-! ## Storage adapters -/

/-- A dynamically typed value (`interface{}` / `driver.Value`): a string, a
byte slice, or a value of some other type. -/
inductive Value where
  | str (s : List Nat)
  | bytes (b : List Nat)
  | int (n : Int)
  | other (typeName : String)
  deriving DecidableEq, Repr

/-- Method `UUIDValue`. -/
def UUIDValue (id : ID) : Value × Option Error :=
  let r := MarshalText id
  (Value.str r.1, r.2)

/-- Method `UUIDScan` on receiver `id`: new receiver value and error. -/
def UUIDScan (id : ID) (value : Value) : ID × Option Error :=
  match value with
  | Value.str val => UnmarshalText id val
  | Value.bytes val => UnmarshalText id val
  | _ => (id, some Error.unsupportedType)

/-! ## Random strings (`string.go`) -/

theorem lor_eq_add (k a b : Nat) (ha : a % 2 ^ k = 0) (hb : b < 2 ^ k) :
    a ||| b = a + b := by
  obtain ⟨c, rfl⟩ := Nat.dvd_of_mod_eq_zero ha
  exact (Nat.mul_add_lt_is_or hb c).symm

theorem and31 (x : Nat) : x &&& 0x1F = x % 32 := Nat.and_pow_two_sub_one_eq_mod x 5

theorem at_zero (a : Nat) (l : List Nat) : at_ (a :: l) 0 = a := rfl

theorem at_succ (a : Nat) (l : List Nat) (n : Nat) : at_ (a :: l) (n + 1) = at_ l n := rfl

theorem at_nil (n : Nat) : at_ [] n = 0 := rfl

theorem encP2 (x y : Nat) (hy : y < 256) :
    ((y >>> 6) &&& 0x1F) ||| (shl8 x 2 &&& 0x1F) = x % 8 * 4 + y / 64 := by
  simp only [shl8, Nat.shiftRight_eq_div_pow, Nat.shiftLeft_eq, and31]
  rw [Nat.lor_comm, lor_eq_add 2 _ _ (by omega) (by omega)]; omega

theorem encP3 (y : Nat) : (y >>> 1) &&& 0x1F = y / 2 % 32 := by
  simp only [Nat.shiftRight_eq_div_pow, and31]

theorem encP4 (y z : Nat) (hz : z < 256) :
    ((z >>> 4) &&& 0x1F) ||| (shl8 y 4 &&& 0x1F) = y % 2 * 16 + z / 16 := by
  simp only [shl8, Nat.shiftRight_eq_div_pow, Nat.shiftLeft_eq, and31]
  rw [Nat.lor_comm, lor_eq_add 4 _ _ (by omega) (by omega)]; omega

theorem encP5 (z w : Nat) (hw : w < 256) :
    (w >>> 7) ||| (shl8 z 1 &&& 0x1F) = z % 16 * 2 + w / 128 := by
  simp only [shl8, Nat.shiftRight_eq_div_pow, Nat.shiftLeft_eq, and31]
  rw [Nat.lor_comm, lor_eq_add 1 _ _ (by omega) (by omega)]; omega

theorem encP6 (w : Nat) : (w >>> 2) &&& 0x1F = w / 4 % 32 := by
  simp only [Nat.shiftRight_eq_div_pow, and31]

theorem encP7 (w v : Nat) (hv : v < 256) :
    (v >>> 5) ||| (shl8 w 3 &&& 0x1F) = w % 4 * 8 + v / 32 := by
  simp only [shl8, Nat.shiftRight_eq_div_pow, Nat.shiftLeft_eq, and31]
  rw [Nat.lor_comm, lor_eq_add 3 _ _ (by omega) (by omega)]; omega

theorem encP1 (x : Nat) : x >>> 3 = x / 8 := by
  simp only [Nat.shiftRight_eq_div_pow]

theorem encP9 (x : Nat) : shl8 x 4 &&& 0x1F = x % 2 * 16 := by
  simp only [shl8, Nat.shiftLeft_eq, and31]; omega

/-- Arithmetic form of the twenty indices of `encode`. -/
theorem encodeIdx_arith (a0 a1 a2 a3 a4 a5 a6 a7 a8 a9 a10 a11 : Nat)
    (h1 : a1 < 256) (h2 : a2 < 256) (h3 : a3 < 256) (h4 : a4 < 256)
    (h6 : a6 < 256) (h7 : a7 < 256) (h8 : a8 < 256) (h9 : a9 < 256) (h11 : a11 < 256) :
    encodeIdx [a0, a1, a2, a3, a4, a5, a6, a7, a8, a9, a10, a11] =
      [a0 / 8, a0 % 8 * 4 + a1 / 64, a1 / 2 % 32, a1 % 2 * 16 + a2 / 16,
       a2 % 16 * 2 + a3 / 128, a3 / 4 % 32, a3 % 4 * 8 + a4 / 32, a4 % 32,
       a5 / 8, a5 % 8 * 4 + a6 / 64, a6 / 2 % 32, a6 % 2 * 16 + a7 / 16,
       a7 % 16 * 2 + a8 / 128, a8 / 4 % 32, a8 % 4 * 8 + a9 / 32, a9 % 32,
       a10 / 8, a10 % 8 * 4 + a11 / 64, a11 / 2 % 32, a11 % 2 * 16] := by
  simp only [encodeIdx, at_zero, at_succ, encP1, encP2 _ _ h1, encP3, encP4 _ _ h2,
    encP5 _ _ h3, encP6, encP7 _ _ h4, encP2 _ _ h6, encP4 _ _ h7, encP5 _ _ h8,
    encP7 _ _ h9, encP2 _ _ h11]
  simp only [encP9]
  simp only [and31]

/-! ## The reverse table -/

set_option maxRecDepth 100000 in
/-- Looking up an alphabet character gives back its index. -/
theorem dec_enc : ∀ i, i < 32 → dec (enc i) = i := by decide

set_option maxRecDepth 100000 in
/-- A byte that the table accepts has a 5-bit value. -/
theorem dec_lt : ∀ c, c < 256 → dec c ≠ 0xFF → dec c < 32 := by decide

set_option maxRecDepth 100000 in
/-- The table accepts exactly the bytes of the alphabet. -/
theorem dec_valid_iff : ∀ c, c < 256 → (dec c ≠ 0xFF ↔ c ∈ encoding) := by decide

set_option maxRecDepth 100000 in
/-- Alphabet characters are bytes accepted by the table. -/
theorem enc_valid : ∀ i, i < 32 → enc i < 256 ∧ dec (enc i) ≠ 0xFF := by decide

/-- The byte list `encoding` spells the alphabet string. -/
theorem encoding_eq : encoding = encodingString.toList.map Char.toNat := by decide

theorem decP1 (a b : Nat) (ha : a < 32) (hb : b < 32) :
    shl8 a 3 ||| (b >>> 2) = a * 8 + b / 4 := by
  simp only [shl8, Nat.shiftRight_eq_div_pow, Nat.shiftLeft_eq]
  rw [lor_eq_add 3 _ _ (by omega) (by omega)]; omega

theorem decP2 (b c d : Nat) (hc : c < 32) (hd : d < 32) :
    shl8 b 6 ||| shl8 c 1 ||| (d >>> 4) = b % 4 * 64 + c * 2 + d / 16 := by
  simp only [shl8, Nat.shiftRight_eq_div_pow, Nat.shiftLeft_eq]
  rw [lor_eq_add 6 (b * 2 ^ 6 % 256) (c * 2 ^ 1 % 256) (by omega) (by omega),
    lor_eq_add 1 _ _ (by omega) (by omega)]; omega

theorem decP3 (d e : Nat) (he : e < 32) :
    shl8 d 4 ||| (e >>> 1) = d % 16 * 16 + e / 2 := by
  simp only [shl8, Nat.shiftRight_eq_div_pow, Nat.shiftLeft_eq]
  rw [lor_eq_add 4 _ _ (by omega) (by omega)]; omega

theorem decP4 (e f g : Nat) (hf : f < 32) (hg : g < 32) :
    shl8 e 7 ||| shl8 f 2 ||| (g >>> 3) = e % 2 * 128 + f * 4 + g / 8 := by
  simp only [shl8, Nat.shiftRight_eq_div_pow, Nat.shiftLeft_eq]
  rw [lor_eq_add 7 (e * 2 ^ 7 % 256) (f * 2 ^ 2 % 256) (by omega) (by omega),
    lor_eq_add 2 _ _ (by omega) (by omega)]; omega

theorem decP5 (g h : Nat) (hh : h < 32) :
    shl8 g 5 ||| h = g % 8 * 32 + h := by
  simp only [shl8, Nat.shiftLeft_eq]
  rw [lor_eq_add 5 _ _ (by omega) (by omega)]; omega

theorem cons_of_length_succ {l : List Nat} {n : Nat} (h : l.length = n + 1) :
    ∃ a t, l = a :: t ∧ t.length = n := by
  cases l with
  | nil => simp at h
  | cons a t => exact ⟨a, t, rfl, by simpa using h⟩

/-- A well-formed identifier is a list of twelve bytes. -/
theorem wf_cases (id : ID) (h : ID.wf id) :
    ∃ a0 a1 a2 a3 a4 a5 a6 a7 a8 a9 a10 a11 : Nat,
      id = [a0, a1, a2, a3, a4, a5, a6, a7, a8, a9, a10, a11] ∧
      a0 < 256 ∧ a1 < 256 ∧ a2 < 256 ∧ a3 < 256 ∧ a4 < 256 ∧ a5 < 256 ∧
      a6 < 256 ∧ a7 < 256 ∧ a8 < 256 ∧ a9 < 256 ∧ a10 < 256 ∧ a11 < 256 := by
  obtain ⟨hl, hb⟩ := h
  simp only [rawLen] at hl
  obtain ⟨a0, t0, rfl, l0⟩ := cons_of_length_succ hl
  obtain ⟨a1, t1, rfl, l1⟩ := cons_of_length_succ l0
  obtain ⟨a2, t2, rfl, l2⟩ := cons_of_length_succ l1
  obtain ⟨a3, t3, rfl, l3⟩ := cons_of_length_succ l2
  obtain ⟨a4, t4, rfl, l4⟩ := cons_of_length_succ l3
  obtain ⟨a5, t5, rfl, l5⟩ := cons_of_length_succ l4
  obtain ⟨a6, t6, rfl, l6⟩ := cons_of_length_succ l5
  obtain ⟨a7, t7, rfl, l7⟩ := cons_of_length_succ l6
  obtain ⟨a8, t8, rfl, l8⟩ := cons_of_length_succ l7
  obtain ⟨a9, t9, rfl, l9⟩ := cons_of_length_succ l8
  obtain ⟨a10, t10, rfl, l10⟩ := cons_of_length_succ l9
  obtain ⟨a11, t11, rfl, l11⟩ := cons_of_length_succ l10
  obtain rfl := List.length_eq_zero.mp l11
  refine ⟨a0, a1, a2, a3, a4, a5, a6, a7, a8, a9, a10, a11, rfl, ?_⟩
  simpa using hb

/-- The decoder inverts the encoder on every well-formed identifier. -/
theorem decode_encode (b : ID) (h : ID.wf b) : decode (encode b) = b := by
  obtain ⟨a0, a1, a2, a3, a4, a5, a6, a7, a8, a9, a10, a11, rfl,
    h0, h1, h2, h3, h4, h5, h6, h7, h8, h9, h10, h11⟩ := wf_cases b h
  rw [encode, encodeIdx_arith _ _ _ _ _ _ _ _ _ _ _ _ h1 h2 h3 h4 h6 h7 h8 h9 h11]
  simp only [List.map_cons, List.map_nil, decode, at_zero, at_succ]
  simp (disch := omega) only [dec_enc]
  simp (disch := omega) only [decP1, decP2, decP3, decP4, decP5]
  simp only [List.cons.injEq, and_true]
  refine ⟨?_, ?_, ?_, ?_, ?_, ?_, ?_, ?_, ?_, ?_, ?_, ?_⟩ <;> omega

/-! ## Validation loop -/

theorem hasInvalidChar_eq_true_iff (s : List Nat) :
    hasInvalidChar s = true ↔ ∃ c ∈ s, dec c = 0xFF := by
  induction s with
  | nil => simp [hasInvalidChar]
  | cons c rest ih =>
    by_cases hc : dec c = 0xFF
    · simp [hasInvalidChar, hc]
    · simp [hasInvalidChar, hc, ih]

theorem hasInvalidChar_eq_false_iff (s : List Nat) :
    hasInvalidChar s = false ↔ ∀ c ∈ s, dec c ≠ 0xFF := by
  rw [← Bool.not_eq_true, hasInvalidChar_eq_true_iff]
  simp

/-- Every index computed by `encode` is a 5-bit number. -/
theorem encodeIdx_lt (id : ID) (h : ID.wf id) : ∀ v ∈ encodeIdx id, v < 32 := by
  obtain ⟨a0, a1, a2, a3, a4, a5, a6, a7, a8, a9, a10, a11, rfl,
    h0, h1, h2, h3, h4, h5, h6, h7, h8, h9, h10, h11⟩ := wf_cases id h
  rw [encodeIdx_arith _ _ _ _ _ _ _ _ _ _ _ _ h1 h2 h3 h4 h6 h7 h8 h9 h11]
  simp only [List.mem_cons, List.mem_singleton, List.not_mem_nil, or_false]
  intro v hv
  rcases hv with hv | hv | hv | hv | hv | hv | hv | hv | hv | hv | hv | hv | hv | hv | hv |
    hv | hv | hv | hv | hv <;> omega

theorem encodeIdx_length (id : List Nat) : (encodeIdx id).length = 20 := rfl

theorem encode_length (id : List Nat) : (encode id).length = 20 := by
  simp [encode, encodeIdx_length]

/-- The encoder emits only characters that the validation loop accepts. -/
theorem encode_valid (id : ID) (h : ID.wf id) : hasInvalidChar (encode id) = false := by
  rw [hasInvalidChar_eq_false_iff]
  intro c hc
  simp only [encode, List.mem_map] at hc
  obtain ⟨v, hv, rfl⟩ := hc
  exact (enc_valid v (encodeIdx_lt id h v hv)).2

set_option maxRecDepth 100000 in
/-- An accepted byte is the alphabet character of its table value. -/
theorem enc_dec : ∀ c, c < 256 → dec c ≠ 0xFF → enc (dec c) = c := by decide

/-- Every alphabet character is `encoding[v]` for a 5-bit `v`. -/
theorem mem_encoding_enc (c : Nat) (hc : c ∈ encoding) : ∃ v, v < 32 ∧ c = enc v := by
  have hb : c < 256 := by
    simp only [encoding, List.mem_cons, List.mem_singleton, List.not_mem_nil, or_false] at hc
    omega
  have hd := (dec_valid_iff c hb).2 hc
  exact ⟨dec c, dec_lt c hb hd, (enc_dec c hb hd).symm⟩

/-- A text of twenty alphabet characters is the image of twenty 5-bit values. -/
theorem text_cases (s : List Nat) (hl : s.length = 20) (hs : ∀ c ∈ s, c ∈ encoding) :
    ∃ v : List Nat, v.length = 20 ∧ (∀ x ∈ v, x < 32) ∧ s = v.map enc := by
  refine ⟨s.map dec, by simpa using hl, ?_, ?_⟩
  · intro x hx
    obtain ⟨c, hc, rfl⟩ := List.mem_map.1 hx
    obtain ⟨v, hv, rfl⟩ := mem_encoding_enc c (hs c hc)
    rw [dec_enc v hv]; exact hv
  · rw [List.map_map]
    refine (List.map_congr_left (fun c hc => ?_)).symm.trans (List.map_id s) |>.symm
    obtain ⟨v, hv, rfl⟩ := mem_encoding_enc c (hs c hc)
    simp [dec_enc v hv]

/-- A list of twenty 5-bit values, spelled out. -/
theorem idx_cases (v : List Nat) (hl : v.length = 20) (hv : ∀ x ∈ v, x < 32) :
    ∃ v0 v1 v2 v3 v4 v5 v6 v7 v8 v9 v10 v11 v12 v13 v14 v15 v16 v17 v18 v19 : Nat,
      v = [v0, v1, v2, v3, v4, v5, v6, v7, v8, v9, v10, v11, v12, v13, v14, v15,
        v16, v17, v18, v19] ∧
      v0 < 32 ∧ v1 < 32 ∧ v2 < 32 ∧ v3 < 32 ∧ v4 < 32 ∧ v5 < 32 ∧ v6 < 32 ∧ v7 < 32 ∧
      v8 < 32 ∧ v9 < 32 ∧ v10 < 32 ∧ v11 < 32 ∧ v12 < 32 ∧ v13 < 32 ∧ v14 < 32 ∧
      v15 < 32 ∧ v16 < 32 ∧ v17 < 32 ∧ v18 < 32 ∧ v19 < 32 := by
  obtain ⟨v0, t0, rfl, l0⟩ := cons_of_length_succ hl
  obtain ⟨v1, t1, rfl, l1⟩ := cons_of_length_succ l0
  obtain ⟨v2, t2, rfl, l2⟩ := cons_of_length_succ l1
  obtain ⟨v3, t3, rfl, l3⟩ := cons_of_length_succ l2
  obtain ⟨v4, t4, rfl, l4⟩ := cons_of_length_succ l3
  obtain ⟨v5, t5, rfl, l5⟩ := cons_of_length_succ l4
  obtain ⟨v6, t6, rfl, l6⟩ := cons_of_length_succ l5
  obtain ⟨v7, t7, rfl, l7⟩ := cons_of_length_succ l6
  obtain ⟨v8, t8, rfl, l8⟩ := cons_of_length_succ l7
  obtain ⟨v9, t9, rfl, l9⟩ := cons_of_length_succ l8
  obtain ⟨v10, t10, rfl, l10⟩ := cons_of_length_succ l9
  obtain ⟨v11, t11, rfl, l11⟩ := cons_of_length_succ l10
  obtain ⟨v12, t12, rfl, l12⟩ := cons_of_length_succ l11
  obtain ⟨v13, t13, rfl, l13⟩ := cons_of_length_succ l12
  obtain ⟨v14, t14, rfl, l14⟩ := cons_of_length_succ l13
  obtain ⟨v15, t15, rfl, l15⟩ := cons_of_length_succ l14
  obtain ⟨v16, t16, rfl, l16⟩ := cons_of_length_succ l15
  obtain ⟨v17, t17, rfl, l17⟩ := cons_of_length_succ l16
  obtain ⟨v18, t18, rfl, l18⟩ := cons_of_length_succ l17
  obtain ⟨v19, t19, rfl, l19⟩ := cons_of_length_succ l18
  obtain rfl := List.length_eq_zero.mp l19
  refine ⟨v0, v1, v2, v3, v4, v5, v6, v7, v8, v9, v10, v11, v12, v13, v14, v15,
    v16, v17, v18, v19, rfl, ?_⟩
  simpa using hv

/-- Arithmetic form of `decode` on the characters of twenty 5-bit values. -/
theorem decode_arith (v0 v1 v2 v3 v4 v5 v6 v7 v8 v9 v10 v11 v12 v13 v14 v15 v16 v17 v18 v19 : Nat)
    (h0 : v0 < 32) (h1 : v1 < 32) (h2 : v2 < 32) (h3 : v3 < 32) (h4 : v4 < 32)
    (h5 : v5 < 32) (h6 : v6 < 32) (h7 : v7 < 32) (h8 : v8 < 32) (h9 : v9 < 32)
    (h10 : v10 < 32) (h11 : v11 < 32) (h12 : v12 < 32) (h13 : v13 < 32) (h14 : v14 < 32)
    (h15 : v15 < 32) (h16 : v16 < 32) (h17 : v17 < 32) (h18 : v18 < 32) (h19 : v19 < 32) :
    decode ([v0, v1, v2, v3, v4, v5, v6, v7, v8, v9, v10, v11, v12, v13, v14, v15,
        v16, v17, v18, v19].map enc) =
      [v0 * 8 + v1 / 4, v1 % 4 * 64 + v2 * 2 + v3 / 16, v3 % 16 * 16 + v4 / 2,
       v4 % 2 * 128 + v5 * 4 + v6 / 8, v6 % 8 * 32 + v7,
       v8 * 8 + v9 / 4, v9 % 4 * 64 + v10 * 2 + v11 / 16, v11 % 16 * 16 + v12 / 2,
       v12 % 2 * 128 + v13 * 4 + v14 / 8, v14 % 8 * 32 + v15,
       v16 * 8 + v17 / 4, v17 % 4 * 64 + v18 * 2 + v19 / 16] := by
  simp only [List.map_cons, List.map_nil, decode, at_zero, at_succ]
  simp (disch := assumption) only [dec_enc]
  simp (disch := assumption) only [decP1, decP2, decP3, decP4, decP5]

/-- A text of twenty alphabet characters parses without error into `decode`. -/
theorem UUIDFromString_valid (s : List Nat) (hl : s.length = 20)
    (hs : ∀ c ∈ s, c ∈ encoding) : UUIDFromString s = (decode s, none) := by
  have hv : hasInvalidChar s = false := by
    rw [hasInvalidChar_eq_false_iff]
    intro c hc
    obtain ⟨v, hv, rfl⟩ := mem_encoding_enc c (hs c hc)
    exact (enc_valid v hv).2
  simp [UUIDFromString, UnmarshalText, encodedLen, hl, hv]

/-- Re-encoding a decoded text: the first nineteen 5-bit values come back, the
last one keeps only its top bit. -/
theorem encodeIdx_decode (v0 v1 v2 v3 v4 v5 v6 v7 v8 v9 v10 v11 v12 v13 v14 v15 v16 v17 v18 v19 : Nat)
    (h0 : v0 < 32) (h1 : v1 < 32) (h2 : v2 < 32) (h3 : v3 < 32) (h4 : v4 < 32)
    (h5 : v5 < 32) (h6 : v6 < 32) (h7 : v7 < 32) (h8 : v8 < 32) (h9 : v9 < 32)
    (h10 : v10 < 32) (h11 : v11 < 32) (h12 : v12 < 32) (h13 : v13 < 32) (h14 : v14 < 32)
    (h15 : v15 < 32) (h16 : v16 < 32) (h17 : v17 < 32) (h18 : v18 < 32) (h19 : v19 < 32) :
    encodeIdx (decode ([v0, v1, v2, v3, v4, v5, v6, v7, v8, v9, v10, v11, v12, v13, v14, v15,
        v16, v17, v18, v19].map enc)) =
      [v0, v1, v2, v3, v4, v5, v6, v7, v8, v9, v10, v11, v12, v13, v14, v15,
        v16, v17, v18, v19 / 16 * 16] := by
  rw [decode_arith v0 v1 v2 v3 v4 v5 v6 v7 v8 v9 v10 v11 v12 v13 v14 v15 v16 v17 v18 v19
    h0 h1 h2 h3 h4 h5 h6 h7 h8 h9 h10 h11 h12 h13 h14 h15 h16 h17 h18 h19]
  rw [encodeIdx_arith _ _ _ _ _ _ _ _ _ _ _ _ (by omega) (by omega) (by omega) (by omega)
    (by omega) (by omega) (by omega) (by omega) (by omega)]
  simp only [List.cons.injEq, and_true]
  refine ⟨?_, ?_, ?_, ?_, ?_, ?_, ?_, ?_, ?_, ?_, ?_, ?_, ?_, ?_, ?_, ?_, ?_, ?_, ?_, ?_⟩ <;> omega

/-! ## Lexicographic order and big-endian value -/

theorem cons_lt_cons_iff (a b : Nat) (l m : List Nat) :
    a :: l < b :: m ↔ a < b ∨ (a = b ∧ l < m) := by
  constructor
  · intro h
    cases h with
    | rel hab => exact Or.inl hab
    | cons hlm => exact Or.inr ⟨rfl, hlm⟩
  · rintro (hab | ⟨rfl, hlm⟩)
    · exact List.Lex.rel hab
    · exact List.Lex.cons hlm

theorem beValue_lt (B : Nat) (ds : List Nat) (hd : ∀ d ∈ ds, d < B) :
    beValue B ds < B ^ ds.length := by
  induction ds with
  | nil => simp [beValue]
  | cons d ds ih =>
    have h1 : d < B := hd d (List.mem_cons_self d ds)
    have h2 := ih (fun x hx => hd x (List.mem_cons_of_mem d hx))
    have h3 : (d + 1) * B ^ ds.length ≤ B * B ^ ds.length := Nat.mul_le_mul_right _ h1
    simp only [beValue, List.length_cons, pow_succ']
    rw [Nat.add_mul] at h3
    omega

/-- On digit lists of equal length the lexicographic order is the order of
the big-endian values. -/
theorem lt_iff_beValue_lt (B : Nat) :
    ∀ xs ys : List Nat, xs.length = ys.length → (∀ d ∈ xs, d < B) → (∀ d ∈ ys, d < B) →
      (xs < ys ↔ beValue B xs < beValue B ys) := by
  intro xs
  induction xs with
  | nil =>
    intro ys hl _ _
    cases ys with
    | nil => simp [beValue]
    | cons y ys => simp at hl
  | cons x xs ih =>
    intro ys hl hx hy
    cases ys with
    | nil => simp at hl
    | cons y ys =>
      have hl2 : xs.length = ys.length := by simpa using hl
      have hxs : ∀ d ∈ xs, d < B := fun d hd => hx d (List.mem_cons_of_mem x hd)
      have hys : ∀ d ∈ ys, d < B := fun d hd => hy d (List.mem_cons_of_mem y hd)
      have b1 := beValue_lt B xs hxs
      have b2 := beValue_lt B ys hys
      have ih2 := ih ys hl2 hxs hys
      rw [cons_lt_cons_iff, ih2]
      simp only [beValue]
      rw [hl2] at b1 ⊢
      rcases Nat.lt_trichotomy x y with hxy | hxy | hxy
      · have h3 : (x + 1) * B ^ ys.length ≤ y * B ^ ys.length := Nat.mul_le_mul_right _ hxy
        rw [Nat.add_mul] at h3
        constructor
        · intro _; omega
        · intro _; exact Or.inl hxy
      · subst hxy
        constructor
        · rintro (h | ⟨_, h⟩) <;> omega
        · intro h; exact Or.inr ⟨rfl, by omega⟩
      · have h3 : (y + 1) * B ^ ys.length ≤ x * B ^ ys.length := Nat.mul_le_mul_right _ hxy
        rw [Nat.add_mul] at h3
        constructor
        · rintro (h | ⟨h, _⟩) <;> omega
        · intro h; omega

set_option maxRecDepth 100000 in
/-- The alphabet is strictly increasing in byte order. -/
theorem enc_lt_iff : ∀ i, i < 32 → ∀ j, j < 32 → (enc i < enc j ↔ i < j) := by decide

set_option maxRecDepth 100000 in
theorem enc_eq_iff : ∀ i, i < 32 → ∀ j, j < 32 → (enc i = enc j ↔ i = j) := by decide

/-- Mapping 5-bit values through the alphabet preserves the lexicographic order. -/
theorem map_enc_lt_iff :
    ∀ xs ys : List Nat, xs.length = ys.length → (∀ d ∈ xs, d < 32) → (∀ d ∈ ys, d < 32) →
      (xs.map enc < ys.map enc ↔ xs < ys) := by
  intro xs
  induction xs with
  | nil =>
    intro ys hl _ _
    cases ys with
    | nil => simp
    | cons y ys => simp at hl
  | cons x xs ih =>
    intro ys hl hx hy
    cases ys with
    | nil => simp at hl
    | cons y ys =>
      have hl2 : xs.length = ys.length := by simpa using hl
      have hxs : ∀ d ∈ xs, d < 32 := fun d hd => hx d (List.mem_cons_of_mem x hd)
      have hys : ∀ d ∈ ys, d < 32 := fun d hd => hy d (List.mem_cons_of_mem y hd)
      have hx0 : x < 32 := hx x (List.mem_cons_self x xs)
      have hy0 : y < 32 := hy y (List.mem_cons_self y ys)
      simp only [List.map_cons, cons_lt_cons_iff, ih ys hl2 hxs hys,
        enc_lt_iff x hx0 y hy0, enc_eq_iff x hx0 y hy0]

/-- The twenty 5-bit groups, read as a base-32 number, are the twelve bytes,
read as a base-256 number, shifted left by the four padding bits. -/
theorem beValue_encodeIdx (id : ID) (h : ID.wf id) :
    beValue 32 (encodeIdx id) = 16 * beValue 256 id := by
  obtain ⟨a0, a1, a2, a3, a4, a5, a6, a7, a8, a9, a10, a11, rfl,
    h0, h1, h2, h3, h4, h5, h6, h7, h8, h9, h10, h11⟩ := wf_cases id h
  rw [encodeIdx_arith _ _ _ _ _ _ _ _ _ _ _ _ h1 h2 h3 h4 h6 h7 h8 h9 h11]
  simp only [beValue, List.length_cons, List.length_nil]
  norm_num
  omega

/-! ## Generator and accessors -/

/-- The twelve bytes written by `GetUUID`. -/
theorem GetUUID_fst (now : Int) (s : State) :
    (GetUUID now s).1 =
      [byteOfNat (uint32OfInt now >>> 24), byteOfNat (uint32OfInt now >>> 16),
       byteOfNat (uint32OfInt now >>> 8), byteOfNat (uint32OfInt now),
       at_ s.machineID 0, at_ s.machineID 1, at_ s.machineID 2,
       byteOfInt (s.pid >>> (8 : Nat)), byteOfInt s.pid,
       byteOfNat (((s.objectIDCounter + 1) % 2 ^ 32) >>> 16),
       byteOfNat (((s.objectIDCounter + 1) % 2 ^ 32) >>> 8),
       byteOfNat ((s.objectIDCounter + 1) % 2 ^ 32)] := rfl

/-- The package state left by `GetUUID`. -/
theorem GetUUID_snd (now : Int) (s : State) :
    (GetUUID now s).2 = { s with objectIDCounter := (s.objectIDCounter + 1) % 2 ^ 32 } := rfl

/-- Arithmetic form of the counter assembled by `UUIDCounter`. -/
theorem counter_arith (x y z : Nat) (hx : x < 256) (hy : y < 256) (hz : z < 256) :
    int32OfNat (shl32 x 16 ||| shl32 y 8 ||| z) = ((x * 65536 + y * 256 + z : Nat) : Int) := by
  have e : shl32 x 16 ||| shl32 y 8 ||| z = x * 65536 + y * 256 + z := by
    simp only [shl32, Nat.shiftLeft_eq]
    rw [lor_eq_add 16 (x * 2 ^ 16 % 2 ^ 32) (y * 2 ^ 8 % 2 ^ 32) (by omega) (by omega),
      lor_eq_add 8 _ _ (by omega) (by omega)]
    omega
  rw [e, int32OfNat]
  have h1 : (x * 65536 + y * 256 + z) % 2 ^ 32 = x * 65536 + y * 256 + z := by omega
  rw [h1, if_pos (by omega)]

/-- Bytes 9-11 of a twelve-element list. -/
theorem UUIDCounter_eq (a0 a1 a2 a3 a4 a5 a6 a7 a8 a9 a10 a11 : Nat)
    (h9 : a9 < 256) (h10 : a10 < 256) (h11 : a11 < 256) :
    UUIDCounter [a0, a1, a2, a3, a4, a5, a6, a7, a8, a9, a10, a11]
      = ((a9 * 65536 + a10 * 256 + a11 : Nat) : Int) :=
  counter_arith a9 a10 a11 h9 h10 h11

/-- The counter field of a generated identifier is the incremented shared
counter reduced modulo `2^24`. -/
theorem UUIDCounter_GetUUID (now : Int) (s : State) :
    UUIDCounter (GetUUID now s).1 = (((s.objectIDCounter + 1) % 2 ^ 24 : Nat) : Int) := by
  rw [GetUUID_fst]
  simp only [byteOfNat]
  rw [UUIDCounter_eq _ _ _ _ _ _ _ _ _ _ _ _
    (Nat.mod_lt _ (by norm_num)) (Nat.mod_lt _ (by norm_num)) (Nat.mod_lt _ (by norm_num))]
  simp only [Nat.shiftRight_eq_div_pow]
  congr 1
  omega

/-- Bytes 9-11 of a generated identifier. -/
theorem slice_GetUUID (now : Int) (s : State) :
    slice (GetUUID now s).1 9 12 =
      [byteOfNat (((s.objectIDCounter + 1) % 2 ^ 32) >>> 16),
       byteOfNat (((s.objectIDCounter + 1) % 2 ^ 32) >>> 8),
       byteOfNat ((s.objectIDCounter + 1) % 2 ^ 32)] := rfl

/-- The accessor `UUIDCounter` reads only bytes 9-11. -/
theorem UUIDCounter_slice (id : ID) :
    UUIDCounter id = int32OfNat (shl32 (at_ (slice id 9 12) 0) 16
      ||| shl32 (at_ (slice id 9 12) 1) 8 ||| at_ (slice id 9 12) 2) := rfl

theorem GetUUIDs_length (ts : List Int) : ∀ s : State, (GetUUIDs ts s).1.length = ts.length := by
  induction ts with
  | nil => intro s; rfl
  | cons t ts ih => intro s; simp [GetUUIDs, ih]

/-- Bytes 9-11 of the identifier returned by call number `i` of a run. -/
theorem slice_GetUUIDs (ts : List Int) :
    ∀ (s : State) (i : Nat), i < ts.length →
      slice ((GetUUIDs ts s).1.getD i zeroID) 9 12 =
        [(s.objectIDCounter + 1 + i) % 2 ^ 32 / 65536 % 256,
         (s.objectIDCounter + 1 + i) % 2 ^ 32 / 256 % 256,
         (s.objectIDCounter + 1 + i) % 2 ^ 32 % 256] := by
  induction ts with
  | nil => intro s i hi; simp at hi
  | cons t ts ih =>
    intro s i hi
    cases i with
    | zero =>
      simp only [GetUUIDs, List.getD_cons_zero, slice_GetUUID, byteOfNat,
        Nat.shiftRight_eq_div_pow, Nat.add_zero]
    | succ i =>
      have hi2 : i < ts.length := by simpa using hi
      simp only [GetUUIDs, List.getD_cons_succ]
      rw [ih (GetUUID t s).2 i hi2, GetUUID_snd]
      simp only [List.cons.injEq, and_true]
      refine ⟨?_, ?_, ?_⟩ <;> omega

/-- The counter field of the identifier returned by call number `i` of a run. -/
theorem UUIDCounter_GetUUIDs (ts : List Int) (s : State) (i : Nat) (hi : i < ts.length) :
    UUIDCounter ((GetUUIDs ts s).1.getD i zeroID)
      = (((s.objectIDCounter + 1 + i) % 2 ^ 24 : Nat) : Int) := by
  rw [UUIDCounter_slice, slice_GetUUIDs ts s i hi]
  simp only [at_zero, at_succ]
  rw [counter_arith _ _ _ (Nat.mod_lt _ (by norm_num)) (Nat.mod_lt _ (by norm_num))
    (Nat.mod_lt _ (by norm_num))]
  congr 1
  omega

theorem Uint32_arith (b0 b1 b2 b3 : Nat) (h0 : b0 < 256) (h1 : b1 < 256) (h2 : b2 < 256)
    (h3 : b3 < 256) :
    Uint32 [b0, b1, b2, b3] = b0 * 16777216 + b1 * 65536 + b2 * 256 + b3 := by
  simp only [Uint32, at_zero, at_succ, shl32, Nat.shiftLeft_eq]
  have e1 : b3 ||| b2 * 2 ^ 8 % 2 ^ 32 = b2 * 256 + b3 := by
    rw [Nat.lor_comm, lor_eq_add 8 _ b3 (by omega) (by omega)]; omega
  have e2 : (b2 * 256 + b3) ||| b1 * 2 ^ 16 % 2 ^ 32 = b1 * 65536 + b2 * 256 + b3 := by
    rw [Nat.lor_comm, lor_eq_add 16 _ _ (by omega) (by omega)]; omega
  have e3 : (b1 * 65536 + b2 * 256 + b3) ||| b0 * 2 ^ 24 % 2 ^ 32
      = b0 * 16777216 + b1 * 65536 + b2 * 256 + b3 := by
    rw [Nat.lor_comm, lor_eq_add 24 _ _ (by omega) (by omega)]; omega
  rw [e1, e2, e3]

theorem Uint16_arith (b0 b1 : Nat) (h0 : b0 < 256) (h1 : b1 < 256) :
    Uint16 [b0, b1] = b0 * 256 + b1 := by
  simp only [Uint16, at_zero, at_succ, shl16, Nat.shiftLeft_eq]
  rw [Nat.lor_comm b1, lor_eq_add 8 _ b1 (by omega) (by omega)]
  omega

/-! ## Claims -/

/-- C1. Binary round trip: for every 12-byte identifier `b`, parsing the text
form `b.UUIDToString()` with `UUIDFromString` returns exactly `b` together
with a nil error. -/
theorem C1_binary_round_trip (b : ID) (h : ID.wf b) :
    UUIDFromString (UUIDToString b) = (b, none) := by
  simp only [UUIDFromString, UnmarshalText, UUIDToString, encode_length, encodedLen,
    ne_eq, not_true_eq_false, if_false, encode_valid b h, decode_encode b h]
  simp

/-- C1 at the identifier of the specification's example. -/
theorem C1_binary_round_trip_witness :
    ID.wf [0, 0, 0, 1, 2, 3, 4, 0, 5, 0, 0, 6] ∧
      UUIDFromString (UUIDToString [0, 0, 0, 1, 2, 3, 4, 0, 5, 0, 0, 6])
        = ([0, 0, 0, 1, 2, 3, 4, 0, 5, 0, 0, 6], none) :=
  ⟨by decide, C1_binary_round_trip _ (by decide)⟩

/-- C2, as stated, fails: the text `00000000000000000001` is twenty alphabet
characters and parses without error, but the parsed identifier prints as
`00000000000000000000`. -/
theorem C2_text_round_trip_counterexample :
    ¬ (∀ s : List Nat, s.length = 20 → (∀ c ∈ s, c ∈ encoding) →
        (UUIDFromString s).2 = none ∧ UUIDToString (UUIDFromString s).1 = s) := by
  intro hall
  have h := (hall [48, 48, 48, 48, 48, 48, 48, 48, 48, 48, 48, 48, 48, 48, 48, 48, 48, 48, 48, 49]
    (by decide) (by decide)).2
  revert h
  decide

/-- C2, amended. For every 20-character string `s` over the alphabet,
`UUIDFromString(s)` succeeds with some identifier `id`; `id.UUIDToString()`
agrees with `s` on the first nineteen characters; and `id.UUIDToString() == s`
whenever the last character of `s` is `'0'` or `'g'`. -/
theorem C2_text_round_trip_amended (s : List Nat) (hl : s.length = 20)
    (hs : ∀ c ∈ s, c ∈ encoding) :
    (UUIDFromString s).2 = none ∧
      (UUIDToString (UUIDFromString s).1).take 19 = s.take 19 ∧
      (at_ s 19 = 48 ∨ at_ s 19 = 103 → UUIDToString (UUIDFromString s).1 = s) := by
  rw [UUIDFromString_valid s hl hs]
  obtain ⟨v, hvl, hvb, rfl⟩ := text_cases s hl hs
  obtain ⟨v0, v1, v2, v3, v4, v5, v6, v7, v8, v9, v10, v11, v12, v13, v14, v15,
    v16, v17, v18, v19, rfl, h0, h1, h2, h3, h4, h5, h6, h7, h8, h9, h10, h11, h12, h13,
    h14, h15, h16, h17, h18, h19⟩ := idx_cases v hvl hvb
  simp only [UUIDToString, encode]
  rw [encodeIdx_decode v0 v1 v2 v3 v4 v5 v6 v7 v8 v9 v10 v11 v12 v13 v14 v15 v16 v17 v18 v19
    h0 h1 h2 h3 h4 h5 h6 h7 h8 h9 h10 h11 h12 h13 h14 h15 h16 h17 h18 h19]
  refine ⟨trivial, rfl, ?_⟩
  intro hlast
  have hd : v19 = 0 ∨ v19 = 16 := by
    have e := dec_enc v19 h19
    simp only [List.map_cons, List.map_nil, at_succ, at_zero] at hlast
    rcases hlast with hx | hx
    · left; rw [hx] at e; rw [← e]; decide
    · right; rw [hx] at e; rw [← e]; decide
  have hq : v19 / 16 * 16 = v19 := by omega
  rw [hq]

/-- C2 (amended) at the text `000000820c2001800030`. -/
theorem C2_text_round_trip_amended_witness :
    UUIDToString (UUIDFromString
      [48, 48, 48, 48, 48, 48, 56, 50, 48, 99, 50, 48, 48, 49, 56, 48, 48, 48, 51, 48]).1
      = [48, 48, 48, 48, 48, 48, 56, 50, 48, 99, 50, 48, 48, 49, 56, 48, 48, 48, 51, 48] :=
  (C2_text_round_trip_amended
    [48, 48, 48, 48, 48, 48, 56, 50, 48, 99, 50, 48, 48, 49, 56, 48, 48, 48, 51, 48]
    (by decide) (by decide)).2.2 (Or.inl (by decide))

/-- C3. Encode equals the reference bit slicing: for every 12-byte identifier
`b` and every `k` in `0..19`, character `k` of `b.UUIDToString()` is
`encoding[v_k]`, where `v_k` is the number formed by bits `5k..5k+4` of the
big-endian bit string of `b` extended with zero bits; and the example bytes
`00 00 00 01 02 03 04 00 05 00 00 06` encode to `000000820c2001800030`. -/
theorem C3_encode_reference (b : ID) (h : ID.wf b) :
    (∀ k, k < 20 → at_ (UUIDToString b) k = enc (refGroup b k)) ∧
      UUIDToString [0x00, 0x00, 0x00, 0x01, 0x02, 0x03, 0x04, 0x00, 0x05, 0x00, 0x00, 0x06]
        = "000000820c2001800030".toList.map Char.toNat := by
  refine ⟨?_, by decide⟩
  obtain ⟨a0, a1, a2, a3, a4, a5, a6, a7, a8, a9, a10, a11, rfl,
    h0, h1, h2, h3, h4, h5, h6, h7, h8, h9, h10, h11⟩ := wf_cases b h
  intro k hk
  rw [UUIDToString, encode, encodeIdx_arith _ _ _ _ _ _ _ _ _ _ _ _ h1 h2 h3 h4 h6 h7 h8 h9 h11]
  interval_cases k <;>
    simp only [List.map_cons, List.map_nil, at_zero, at_succ, refGroup, refBit] <;>
    norm_num [at_zero, at_succ, at_nil] <;> congr 1 <;> omega

/-- C3 at the identifier of the specification's example. -/
theorem C3_encode_reference_witness :
    ID.wf [0, 0, 0, 1, 2, 3, 4, 0, 5, 0, 0, 6] ∧
      ((∀ k, k < 20 → at_ (UUIDToString [0, 0, 0, 1, 2, 3, 4, 0, 5, 0, 0, 6]) k
          = enc (refGroup [0, 0, 0, 1, 2, 3, 4, 0, 5, 0, 0, 6] k)) ∧
        UUIDToString [0x00, 0x00, 0x00, 0x01, 0x02, 0x03, 0x04, 0x00, 0x05, 0x00, 0x00, 0x06]
          = "000000820c2001800030".toList.map Char.toNat) :=
  ⟨by decide, C3_encode_reference _ (by decide)⟩

/-- Membership in the alphabet, by character range: `'0'..'9'` or `'a'..'v'`. -/
theorem mem_encoding_iff (c : Nat) :
    c ∈ encoding ↔ (48 ≤ c ∧ c ≤ 57) ∨ (97 ≤ c ∧ c ≤ 118) := by
  simp only [encoding, List.mem_cons, List.mem_singleton, List.not_mem_nil, or_false]
  omega

/-- The validation loop rejects exactly the texts with a byte outside the alphabet. -/
theorem hasInvalidChar_iff (s : List Nat) (hs : isBytes s) :
    hasInvalidChar s = true ↔ ∃ c ∈ s, c ∉ encoding := by
  rw [hasInvalidChar_eq_true_iff]
  constructor
  · rintro ⟨c, hc, hd⟩
    exact ⟨c, hc, fun hm => ((dec_valid_iff c (hs c hc)).2 hm) hd⟩
  · rintro ⟨c, hc, hm⟩
    refine ⟨c, hc, ?_⟩
    by_contra hd
    exact hm ((dec_valid_iff c (hs c hc)).1 hd)

/-- C4. Parse fails exactly on malformed text: for every byte string `s` (and
every receiver `id`), `UnmarshalText(s)` and `UUIDFromString(s)` return
`ErrInvalidID` if and only if `len(s) != 20` or some byte of `s` lies outside
`'0'..'9'`, `'a'..'v'`; otherwise the error is nil. Uppercase letters,
`'w'..'z'` and bytes of 128 and above lie outside these ranges. -/
theorem C4_parse_fails_iff_malformed (id : ID) (s : List Nat) (hs : isBytes s) :
    ((UnmarshalText id s).2 = some Error.ErrInvalidID ↔
        (s.length ≠ 20 ∨ ∃ c ∈ s, ¬ ((48 ≤ c ∧ c ≤ 57) ∨ (97 ≤ c ∧ c ≤ 118)))) ∧
      ((UUIDFromString s).2 = some Error.ErrInvalidID ↔
        (s.length ≠ 20 ∨ ∃ c ∈ s, ¬ ((48 ≤ c ∧ c ≤ 57) ∨ (97 ≤ c ∧ c ≤ 118)))) ∧
      ((UnmarshalText id s).2 ≠ some Error.ErrInvalidID → (UnmarshalText id s).2 = none) ∧
      ((UUIDFromString s).2 ≠ some Error.ErrInvalidID → (UUIDFromString s).2 = none) := by
  have key : ∀ r : ID, ((UnmarshalText r s).2 = some Error.ErrInvalidID ↔
        (s.length ≠ 20 ∨ ∃ c ∈ s, ¬ ((48 ≤ c ∧ c ≤ 57) ∨ (97 ≤ c ∧ c ≤ 118)))) ∧
      ((UnmarshalText r s).2 ≠ some Error.ErrInvalidID → (UnmarshalText r s).2 = none) := by
    intro r
    have hiff := hasInvalidChar_iff s hs
    simp only [mem_encoding_iff] at hiff
    have e : (UnmarshalText r s).2 =
        if s.length ≠ 20 ∨ hasInvalidChar s = true then some Error.ErrInvalidID else none := by
      unfold UnmarshalText
      by_cases hl : s.length = 20 <;> by_cases hv : hasInvalidChar s = true <;>
        simp [encodedLen, hl, hv]
    rw [e]
    split_ifs with hc
    · exact ⟨⟨fun _ => hc.imp_right hiff.1, fun _ => rfl⟩, fun hne => absurd rfl hne⟩
    · exact ⟨⟨fun h => (by cases h), fun h => absurd (h.imp_right hiff.2) hc⟩, fun _ => rfl⟩
  exact ⟨(key id).1, (key zeroID).1, (key id).2, (key zeroID).2⟩

/-- C4 at a text with an uppercase letter: the parse is rejected. -/
theorem C4_parse_fails_iff_malformed_witness :
    isBytes [65, 48, 48, 48, 48, 48, 48, 48, 48, 48, 48, 48, 48, 48, 48, 48, 48, 48, 48, 48] ∧
      (UUIDFromString [65, 48, 48, 48, 48, 48, 48, 48, 48, 48, 48, 48, 48, 48, 48, 48, 48, 48, 48, 48]).2
        = some Error.ErrInvalidID :=
  ⟨by decide,
    ((C4_parse_fails_iff_malformed zeroID
      [65, 48, 48, 48, 48, 48, 48, 48, 48, 48, 48, 48, 48, 48, 48, 48, 48, 48, 48, 48]
      (by decide)).2.1).2 (Or.inr ⟨65, by simp, by omega⟩)⟩

/-- C5. Encode is total and closed over the alphabet: for every 12-byte
identifier each of the twenty table indices computed by `encode` is below 32,
`UUIDToString` and `MarshalText` return exactly 20 characters, every one a
member of the alphabet, and the error of `MarshalText` is nil. -/
theorem C5_encode_total_closed (id : ID) (h : ID.wf id) :
    (encodeIdx id).length = 20 ∧ (∀ v ∈ encodeIdx id, v < 32) ∧ encoding.length = 32 ∧
      (UUIDToString id).length = 20 ∧ (∀ c ∈ UUIDToString id, c ∈ encoding) ∧
      (MarshalText id).1 = UUIDToString id ∧ (MarshalText id).2 = none := by
  refine ⟨rfl, encodeIdx_lt id h, rfl, encode_length id, ?_, rfl, rfl⟩
  intro c hc
  simp only [UUIDToString, encode, List.mem_map] at hc
  obtain ⟨v, hv, rfl⟩ := hc
  have hlt := encodeIdx_lt id h v hv
  exact (dec_valid_iff (enc v) (enc_valid v hlt).1).1 (enc_valid v hlt).2

/-- C5 at the identifier of the specification's example. -/
theorem C5_encode_total_closed_witness :
    ID.wf [0, 0, 0, 1, 2, 3, 4, 0, 5, 0, 0, 6] ∧
      (UUIDToString [0, 0, 0, 1, 2, 3, 4, 0, 5, 0, 0, 6]).length = 20 :=
  ⟨by decide, (C5_encode_total_closed _ (by decide)).2.2.2.1⟩

/-- C6. The text form sorts like the raw bytes: for all 12-byte identifiers
`a` and `b`, `a` is lexicographically less than `b` as byte sequences if and
only if `a.UUIDToString()` is less than `b.UUIDToString()` in byte-wise string
order, and the two texts are equal if and only if `a == b`. -/
theorem C6_text_sorts_like_bytes (a b : ID) (ha : ID.wf a) (hb : ID.wf b) :
    (a < b ↔ UUIDToString a < UUIDToString b) ∧ (UUIDToString a = UUIDToString b ↔ a = b) := by
  constructor
  · have e1 := lt_iff_beValue_lt 256 a b (ha.1.trans hb.1.symm) ha.2 hb.2
    have e2 := lt_iff_beValue_lt 32 (encodeIdx a) (encodeIdx b) rfl
      (encodeIdx_lt a ha) (encodeIdx_lt b hb)
    have e3 := map_enc_lt_iff (encodeIdx a) (encodeIdx b) rfl
      (encodeIdx_lt a ha) (encodeIdx_lt b hb)
    have va := beValue_encodeIdx a ha
    have vb := beValue_encodeIdx b hb
    simp only [UUIDToString, encode]
    rw [e3, e2, e1]
    omega
  · constructor
    · intro h
      have h2 : decode (encode a) = decode (encode b) := by
        simp only [UUIDToString] at h; rw [h]
      rwa [decode_encode a ha, decode_encode b hb] at h2
    · intro h; rw [h]

/-- C6 at two identifiers that differ in their last byte. -/
theorem C6_text_sorts_like_bytes_witness :
    ID.wf [0, 0, 0, 1, 2, 3, 4, 0, 5, 0, 0, 6] ∧ ID.wf [0, 0, 0, 1, 2, 3, 4, 0, 5, 0, 0, 7] ∧
      UUIDToString [0, 0, 0, 1, 2, 3, 4, 0, 5, 0, 0, 6]
        < UUIDToString [0, 0, 0, 1, 2, 3, 4, 0, 5, 0, 0, 7] :=
  ⟨by decide, by decide,
    (C6_text_sorts_like_bytes [0, 0, 0, 1, 2, 3, 4, 0, 5, 0, 0, 6]
      [0, 0, 0, 1, 2, 3, 4, 0, 5, 0, 0, 7] (by decide) (by decide)).1.1 (by decide)⟩

/-- C7. Monotonic counter with wrap at `2^24`: for every state of the shared
counter, if two consecutive `GetUUID` calls return `a` and then `b`, then
`b.UUIDCounter() == (a.UUIDCounter() + 1) mod 2^24`; in particular the value
after `2^24 - 1` is `0`, also when the 32-bit variable itself overflows
(state `2^32 - 2`). -/
theorem C7_counter_monotonic_wrap (t1 t2 : Int) (s : State) :
    UUIDCounter (GetUUID t2 (GetUUID t1 s).2).1
        = (UUIDCounter (GetUUID t1 s).1 + 1) % 2 ^ 24 ∧
      (UUIDCounter (GetUUID t1 s).1 = 2 ^ 24 - 1 →
        UUIDCounter (GetUUID t2 (GetUUID t1 s).2).1 = 0) ∧
      (s.objectIDCounter = 2 ^ 32 - 2 →
        UUIDCounter (GetUUID t1 s).1 = 2 ^ 24 - 1 ∧
        (GetUUID t2 (GetUUID t1 s).2).2.objectIDCounter = 0 ∧
        UUIDCounter (GetUUID t2 (GetUUID t1 s).2).1 = 0) := by
  have key : UUIDCounter (GetUUID t2 (GetUUID t1 s).2).1
        = (UUIDCounter (GetUUID t1 s).1 + 1) % 2 ^ 24 := by
    rw [UUIDCounter_GetUUID, UUIDCounter_GetUUID, GetUUID_snd]
    simp only
    omega
  refine ⟨key, ?_, ?_⟩
  · intro h
    rw [key, h]; norm_num
  · intro h
    have h1 : UUIDCounter (GetUUID t1 s).1 = 2 ^ 24 - 1 := by
      rw [UUIDCounter_GetUUID, h]; norm_num
    refine ⟨h1, ?_, ?_⟩
    · rw [GetUUID_snd, GetUUID_snd]; simp only [h]; norm_num
    · rw [key, h1]; norm_num

/-- C7 at the state where the 32-bit variable overflows. -/
theorem C7_counter_monotonic_wrap_witness :
    UUIDCounter (GetUUID 0 ⟨2 ^ 32 - 2, [1, 2, 3], 7⟩).1 = 2 ^ 24 - 1 ∧
      (GetUUID 0 (GetUUID 0 ⟨2 ^ 32 - 2, [1, 2, 3], 7⟩).2).2.objectIDCounter = 0 ∧
      UUIDCounter (GetUUID 0 (GetUUID 0 ⟨2 ^ 32 - 2, [1, 2, 3], 7⟩).2).1 = 0 :=
  (C7_counter_monotonic_wrap 0 0 ⟨2 ^ 32 - 2, [1, 2, 3], 7⟩).2.2 rfl

/-- C8. Counter uniqueness: starting from any counter state, the identifiers
produced by any `N <= 2^24` consecutive `GetUUID` calls have pairwise distinct
counter fields (bytes 9-11, and so distinct `UUIDCounter` values); with
`N = 2^24 + 1` the first and the last counter field coincide. -/
theorem C8_counter_uniqueness (ts : List Int) (s : State) :
    (GetUUIDs ts s).1.length = ts.length ∧
      (ts.length ≤ 2 ^ 24 → ∀ i j, i < j → j < ts.length →
        UUIDCounter ((GetUUIDs ts s).1.getD i zeroID)
            ≠ UUIDCounter ((GetUUIDs ts s).1.getD j zeroID) ∧
          slice ((GetUUIDs ts s).1.getD i zeroID) 9 12
            ≠ slice ((GetUUIDs ts s).1.getD j zeroID) 9 12) ∧
      (ts.length = 2 ^ 24 + 1 →
        UUIDCounter ((GetUUIDs ts s).1.getD 0 zeroID)
            = UUIDCounter ((GetUUIDs ts s).1.getD (2 ^ 24) zeroID) ∧
          slice ((GetUUIDs ts s).1.getD 0 zeroID) 9 12
            = slice ((GetUUIDs ts s).1.getD (2 ^ 24) zeroID) 9 12) := by
  refine ⟨GetUUIDs_length ts s, ?_, ?_⟩
  · intro hN i j hij hj
    have hne : UUIDCounter ((GetUUIDs ts s).1.getD i zeroID)
        ≠ UUIDCounter ((GetUUIDs ts s).1.getD j zeroID) := by
      rw [UUIDCounter_GetUUIDs ts s i (by omega), UUIDCounter_GetUUIDs ts s j hj]
      intro h
      have h2 := Int.ofNat.inj h
      omega
    refine ⟨hne, fun h => hne ?_⟩
    rw [UUIDCounter_slice, UUIDCounter_slice, h]
  · intro hN
    constructor
    · rw [UUIDCounter_GetUUIDs ts s 0 (by omega), UUIDCounter_GetUUIDs ts s (2 ^ 24) (by omega)]
      omega
    · rw [slice_GetUUIDs ts s 0 (by omega), slice_GetUUIDs ts s (2 ^ 24) (by omega)]
      simp only [List.cons.injEq, and_true]
      refine ⟨?_, ?_, ?_⟩ <;> omega

/-- C8 at a run of three calls across the wrap, and at a run of `2^24 + 1` calls. -/
theorem C8_counter_uniqueness_witness :
    UUIDCounter ((GetUUIDs [5, 5, 6] ⟨2 ^ 24 - 2, [1, 2, 3], 7⟩).1.getD 0 zeroID)
        ≠ UUIDCounter ((GetUUIDs [5, 5, 6] ⟨2 ^ 24 - 2, [1, 2, 3], 7⟩).1.getD 2 zeroID) ∧
      UUIDCounter ((GetUUIDs (List.replicate (2 ^ 24 + 1) 5) ⟨9, [1, 2, 3], 7⟩).1.getD 0 zeroID)
        = UUIDCounter ((GetUUIDs (List.replicate (2 ^ 24 + 1) 5)
            ⟨9, [1, 2, 3], 7⟩).1.getD (2 ^ 24) zeroID) :=
  ⟨((C8_counter_uniqueness [5, 5, 6] ⟨2 ^ 24 - 2, [1, 2, 3], 7⟩).2.1 (by norm_num) 0 2
      (by norm_num) (by norm_num)).1,
    ((C8_counter_uniqueness (List.replicate (2 ^ 24 + 1) 5) ⟨9, [1, 2, 3], 7⟩).2.2
      (List.length_replicate _ _)).1⟩

/-- C9. Generator layout and field extraction: for `GetUUID` run at wall-clock
second `t` with cached machine bytes `m0 m1 m2`, process id `p` and counter
state `c`, the returned identifier has bytes 0-3 = big-endian `t mod 2^32`,
bytes 4-6 = the machine bytes, bytes 7-8 = big-endian `p mod 2^16`, bytes
9-11 = big-endian `(c + 1) mod 2^24`; hence `UUIDTime` is the Unix second
`t mod 2^32` (exactly `t` when `0 <= t < 2^32`), `UUIDMachine` is the machine
bytes, `UUIDPid` is `p mod 2^16` and `UUIDCounter` is `(c + 1) mod 2^24`. -/
theorem C9_generator_layout (t p : Int) (c m0 m1 m2 : Nat) :
    (GetUUID t ⟨c, [m0, m1, m2], p⟩).1 =
        [(t % 2 ^ 32).toNat / 2 ^ 24, (t % 2 ^ 32).toNat / 2 ^ 16 % 256,
         (t % 2 ^ 32).toNat / 2 ^ 8 % 256, (t % 2 ^ 32).toNat % 256,
         m0, m1, m2,
         (p % 2 ^ 16).toNat / 2 ^ 8, (p % 2 ^ 16).toNat % 256,
         (c + 1) % 2 ^ 24 / 2 ^ 16, (c + 1) % 2 ^ 24 / 2 ^ 8 % 256, (c + 1) % 2 ^ 24 % 256] ∧
      UUIDTime (GetUUID t ⟨c, [m0, m1, m2], p⟩).1 = t % 2 ^ 32 ∧
      (0 ≤ t → t < 2 ^ 32 → UUIDTime (GetUUID t ⟨c, [m0, m1, m2], p⟩).1 = t) ∧
      UUIDMachine (GetUUID t ⟨c, [m0, m1, m2], p⟩).1 = [m0, m1, m2] ∧
      ((UUIDPid (GetUUID t ⟨c, [m0, m1, m2], p⟩).1 : Nat) : Int) = p % 2 ^ 16 ∧
      UUIDCounter (GetUUID t ⟨c, [m0, m1, m2], p⟩).1 = (((c + 1) % 2 ^ 24 : Nat) : Int) := by
  have hT : UUIDTime (GetUUID t ⟨c, [m0, m1, m2], p⟩).1 = t % 2 ^ 32 := by
    rw [GetUUID_fst]
    simp only [UUIDTime, slice, List.drop, List.take, byteOfNat, uint32OfInt,
      Nat.shiftRight_eq_div_pow]
    rw [Uint32_arith _ _ _ _ (Nat.mod_lt _ (by norm_num)) (Nat.mod_lt _ (by norm_num))
      (Nat.mod_lt _ (by norm_num)) (Nat.mod_lt _ (by norm_num))]
    omega
  refine ⟨?_, hT, ?_, rfl, ?_, UUIDCounter_GetUUID _ _⟩
  · rw [GetUUID_fst]
    simp only [byteOfNat, byteOfInt, uint32OfInt, Nat.shiftRight_eq_div_pow,
      Int.shiftRight_eq_div_pow, Nat.cast_pow, Nat.cast_ofNat, at_zero, at_succ,
      List.cons.injEq, and_true, true_and]
    omega
  · intro h0 h1
    rw [hT]; omega
  · rw [GetUUID_fst]
    simp only [UUIDPid, slice, List.drop, List.take, byteOfInt, Int.shiftRight_eq_div_pow,
      Nat.cast_pow, Nat.cast_ofNat]
    rw [Uint16_arith _ _ (by omega) (by omega)]
    omega

/-- C9 at second 1700000000, process id 70000 and counter state `2^32 - 1`. -/
theorem C9_generator_layout_witness :
    UUIDTime (GetUUID 1700000000 ⟨2 ^ 32 - 1, [1, 2, 3], 70000⟩).1 = 1700000000 ∧
      ((UUIDPid (GetUUID 1700000000 ⟨2 ^ 32 - 1, [1, 2, 3], 70000⟩).1 : Nat) : Int)
        = 70000 % 2 ^ 16 :=
  ⟨(C9_generator_layout 1700000000 70000 (2 ^ 32 - 1) 1 2 3).2.2.1 (by norm_num) (by norm_num),
    (C9_generator_layout 1700000000 70000 (2 ^ 32 - 1) 1 2 3).2.2.2.2.1⟩

/-- C10. Counter accessor range: for every 12-byte identifier, `UUIDCounter()`
equals `b9 * 65536 + b10 * 256 + b11` of bytes 9-11 and so lies in
`0 <= UUIDCounter() < 2^24`; the `int32` conversion never yields a negative
value. -/
theorem C10_counter_accessor_range (id : ID) (h : ID.wf id) :
    UUIDCounter id = ((at_ id 9 * 65536 + at_ id 10 * 256 + at_ id 11 : Nat) : Int) ∧
      0 ≤ UUIDCounter id ∧ UUIDCounter id < 2 ^ 24 := by
  obtain ⟨a0, a1, a2, a3, a4, a5, a6, a7, a8, a9, a10, a11, rfl,
    h0, h1, h2, h3, h4, h5, h6, h7, h8, h9, h10, h11⟩ := wf_cases id h
  rw [UUIDCounter_eq _ _ _ _ _ _ _ _ _ _ _ _ h9 h10 h11]
  simp only [at_zero, at_succ]
  refine ⟨trivial, ?_, ?_⟩ <;> omega

/-- C10 at the identifier with the largest counter field. -/
theorem C10_counter_accessor_range_witness :
    ID.wf [0, 0, 0, 0, 0, 0, 0, 0, 0, 255, 255, 255] ∧
      UUIDCounter [0, 0, 0, 0, 0, 0, 0, 0, 0, 255, 255, 255] < 2 ^ 24 :=
  ⟨by decide, (C10_counter_accessor_range _ (by decide)).2.2⟩

/-! ## Runs of the generator -/

/-- Bytes 4-8 of a generated identifier are the cached machine bytes and the
cached process id. -/
theorem slice48_GetUUID (now : Int) (s : State) :
    slice (GetUUID now s).1 4 9 =
      [at_ s.machineID 0, at_ s.machineID 1, at_ s.machineID 2,
       byteOfInt (s.pid >>> (8 : Nat)), byteOfInt s.pid] := rfl

/-- A run leaves `machineID` and `pid` alone and adds its length to the counter. -/
theorem GetUUIDs_snd (ts : List Int) :
    ∀ s : State, (GetUUIDs ts s).2.machineID = s.machineID ∧ (GetUUIDs ts s).2.pid = s.pid ∧
      (GetUUIDs ts s).2.objectIDCounter % 2 ^ 32 = (s.objectIDCounter + ts.length) % 2 ^ 32 := by
  induction ts with
  | nil => intro s; exact ⟨rfl, rfl, rfl⟩
  | cons t ts ih =>
    intro s
    obtain ⟨h1, h2, h3⟩ := ih (GetUUID t s).2
    simp only [GetUUIDs]
    refine ⟨h1.trans rfl, h2.trans rfl, ?_⟩
    rw [h3, GetUUID_snd]
    simp only [List.length_cons]
    omega

/-- Every call of a run sees the machine bytes and process id of the start state. -/
theorem slice48_GetUUIDs (ts : List Int) :
    ∀ (s : State) (i : Nat), i < ts.length →
      slice ((GetUUIDs ts s).1.getD i zeroID) 4 9 =
        [at_ s.machineID 0, at_ s.machineID 1, at_ s.machineID 2,
         byteOfInt (s.pid >>> (8 : Nat)), byteOfInt s.pid] := by
  induction ts with
  | nil => intro s i hi; simp at hi
  | cons t ts ih =>
    intro s i hi
    cases i with
    | zero => simp only [GetUUIDs, List.getD_cons_zero, slice48_GetUUID]
    | succ i =>
      have hi2 : i < ts.length := by simpa using hi
      simp only [GetUUIDs, List.getD_cons_succ]
      rw [ih (GetUUID t s).2 i hi2, GetUUID_snd]

/-- Parsing an encoder output into any receiver yields the encoded identifier. -/
theorem UnmarshalText_encode (r id : ID) (h : ID.wf id) :
    UnmarshalText r (encode id) = (id, none) := by
  simp only [UnmarshalText, encode_length, encodedLen, ne_eq, not_true_eq_false, if_false,
    encode_valid id h, decode_encode id h]
  simp

set_option maxRecDepth 100000 in
/-- The position of `encoding[i]` in the alphabet is `i`. -/
theorem alphabetIndex_enc : ∀ i, i < 32 → alphabetIndex (enc i) = i := by decide

/-- A text over the alphabet is the image of its alphabet indices. -/
theorem text_index (s : List Nat) (hs : ∀ c ∈ s, c ∈ encoding) :
    s = (s.map alphabetIndex).map enc ∧ ∀ x ∈ s.map alphabetIndex, x < 32 := by
  constructor
  · rw [List.map_map]
    refine ((List.map_congr_left (fun c hc => ?_)).trans (List.map_id s)).symm
    obtain ⟨v, hv, rfl⟩ := mem_encoding_enc c (hs c hc)
    simp [alphabetIndex_enc v hv]
  · intro x hx
    obtain ⟨c, hc, rfl⟩ := List.mem_map.1 hx
    obtain ⟨v, hv, rfl⟩ := mem_encoding_enc c (hs c hc)
    rw [alphabetIndex_enc v hv]; exact hv

/-- Arithmetic form of the first twelve bytes of the concatenated 5-bit groups. -/
theorem refByte_arith (v0 v1 v2 v3 v4 v5 v6 v7 v8 v9 v10 v11 v12 v13 v14 v15 v16 v17 v18 v19 : Nat)
    (h0 : v0 < 32) (h1 : v1 < 32) (h2 : v2 < 32) (h3 : v3 < 32) (h4 : v4 < 32)
    (h5 : v5 < 32) (h6 : v6 < 32) (h7 : v7 < 32) (h8 : v8 < 32) (h9 : v9 < 32)
    (h10 : v10 < 32) (h11 : v11 < 32) (h12 : v12 < 32) (h13 : v13 < 32) (h14 : v14 < 32)
    (h15 : v15 < 32) (h16 : v16 < 32) (h17 : v17 < 32) (h18 : v18 < 32) (h19 : v19 < 32) :
    (List.range 12).map (refByte [v0, v1, v2, v3, v4, v5, v6, v7, v8, v9, v10, v11, v12, v13, v14, v15,
        v16, v17, v18, v19]) =
      [v0 * 8 + v1 / 4, v1 % 4 * 64 + v2 * 2 + v3 / 16, v3 % 16 * 16 + v4 / 2,
       v4 % 2 * 128 + v5 * 4 + v6 / 8, v6 % 8 * 32 + v7,
       v8 * 8 + v9 / 4, v9 % 4 * 64 + v10 * 2 + v11 / 16, v11 % 16 * 16 + v12 / 2,
       v12 % 2 * 128 + v13 * 4 + v14 / 8, v14 % 8 * 32 + v15,
       v16 * 8 + v17 / 4, v17 % 4 * 64 + v18 * 2 + v19 / 16] := by
  have hr : List.range 12 = [0, 1, 2, 3, 4, 5, 6, 7, 8, 9, 10, 11] := by decide
  rw [hr]
  simp only [List.map_cons, List.map_nil, refByte, groupBit]
  norm_num [at_zero, at_succ]
  refine ⟨?_, ?_, ?_, ?_, ?_, ?_, ?_, ?_, ?_, ?_, ?_, ?_⟩ <;> omega

/-- Two texts decode to the same bytes exactly when their 5-bit values agree
on the first nineteen positions and on the top bit of the last one. -/
theorem decode_eq_iff (v w : List Nat) (hvl : v.length = 20) (hv : ∀ x ∈ v, x < 32)
    (hwl : w.length = 20) (hw : ∀ x ∈ w, x < 32) :
    decode (v.map enc) = decode (w.map enc) ↔
      v.take 19 = w.take 19 ∧ at_ v 19 / 16 = at_ w 19 / 16 := by
  obtain ⟨v0, v1, v2, v3, v4, v5, v6, v7, v8, v9, v10, v11, v12, v13, v14, v15,
    v16, v17, v18, v19, rfl, h0, h1, h2, h3, h4, h5, h6, h7, h8, h9, h10, h11, h12, h13,
    h14, h15, h16, h17, h18, h19⟩ := idx_cases v hvl hv
  obtain ⟨w0, w1, w2, w3, w4, w5, w6, w7, w8, w9, w10, w11, w12, w13, w14, w15,
    w16, w17, w18, w19, rfl, g0, g1, g2, g3, g4, g5, g6, g7, g8, g9, g10, g11, g12, g13,
    g14, g15, g16, g17, g18, g19⟩ := idx_cases w hwl hw
  constructor
  · intro h
    have he := congrArg encodeIdx h
    rw [encodeIdx_decode v0 v1 v2 v3 v4 v5 v6 v7 v8 v9 v10 v11 v12 v13 v14 v15 v16 v17 v18 v19
        h0 h1 h2 h3 h4 h5 h6 h7 h8 h9 h10 h11 h12 h13 h14 h15 h16 h17 h18 h19,
      encodeIdx_decode w0 w1 w2 w3 w4 w5 w6 w7 w8 w9 w10 w11 w12 w13 w14 w15 w16 w17 w18 w19
        g0 g1 g2 g3 g4 g5 g6 g7 g8 g9 g10 g11 g12 g13 g14 g15 g16 g17 g18 g19] at he
    simp only [List.cons.injEq, and_true] at he
    simp only [List.take, List.cons.injEq, and_true, at_zero, at_succ]
    omega
  · intro h
    simp only [List.take, List.cons.injEq, and_true, at_zero, at_succ] at h
    rw [decode_arith v0 v1 v2 v3 v4 v5 v6 v7 v8 v9 v10 v11 v12 v13 v14 v15 v16 v17 v18 v19
        h0 h1 h2 h3 h4 h5 h6 h7 h8 h9 h10 h11 h12 h13 h14 h15 h16 h17 h18 h19,
      decode_arith w0 w1 w2 w3 w4 w5 w6 w7 w8 w9 w10 w11 w12 w13 w14 w15 w16 w17 w18 w19
        g0 g1 g2 g3 g4 g5 g6 g7 g8 g9 g10 g11 g12 g13 g14 g15 g16 g17 g18 g19]
    simp only [List.cons.injEq, and_true]
    omega

/-- Reading position 19 of a mapped text of twenty characters. -/
theorem at_map_19 (f : Nat → Nat) (s : List Nat) (hl : s.length = 20) :
    at_ (s.map f) 19 = f (at_ s 19) := by
  have h1 : 19 < s.length := by omega
  have h2 : 19 < (s.map f).length := by simpa using h1
  simp only [at_]
  rw [List.getD_eq_getElem _ _ h2, List.getD_eq_getElem _ _ h1, List.getElem_map]

/-- Arithmetic form of the seed assembled by `randInt`. -/
theorem randInt_arith (x y z : Nat) (hx : x < 256) (hy : y < 256) (hz : z < 256) :
    shl32 x 16 ||| shl32 y 8 ||| z = x * 65536 + y * 256 + z := by
  simp only [shl32, Nat.shiftLeft_eq]
  rw [lor_eq_add 16 (x * 2 ^ 16 % 2 ^ 32) (y * 2 ^ 8 % 2 ^ 32) (by omega) (by omega),
    lor_eq_add 8 _ _ (by omega) (by omega)]
  omega

/-- Two texts over the alphabet parse to the same identifier exactly when
they agree on the first nineteen characters and on the top bit of the index of
the last one. -/
theorem decode_text_eq_iff (s s' : List Nat) (hl : s.length = 20)
    (hs : ∀ c ∈ s, c ∈ encoding) (hl' : s'.length = 20) (hs' : ∀ c ∈ s', c ∈ encoding) :
    decode s = decode s' ↔
      s.take 19 = s'.take 19 ∧
        alphabetIndex (at_ s 19) / 16 = alphabetIndex (at_ s' 19) / 16 := by
  obtain ⟨e, hv⟩ := text_index s hs
  obtain ⟨e', hv'⟩ := text_index s' hs'
  have hvl : (s.map alphabetIndex).length = 20 := by simpa using hl
  have hvl' : (s'.map alphabetIndex).length = 20 := by simpa using hl'
  have key := decode_eq_iff _ _ hvl hv hvl' hv'
  rw [← e, ← e', at_map_19 _ s hl, at_map_19 _ s' hl'] at key
  rw [key]
  constructor
  · rintro ⟨h1, h2⟩
    refine ⟨?_, h2⟩
    have h3 := congrArg (List.map enc) h1
    rw [List.map_take, List.map_take, ← e, ← e'] at h3
    exact h3
  · rintro ⟨h1, h2⟩
    refine ⟨?_, h2⟩
    rw [← List.map_take, ← List.map_take, h1]

/-- A failing `UnmarshalText` returns the receiver unchanged with `ErrInvalidID`. -/
theorem UnmarshalText_fail (id : ID) (text : List Nat)
    (h : (UnmarshalText id text).2 ≠ none) :
    UnmarshalText id text = (id, some Error.ErrInvalidID) := by
  unfold UnmarshalText at h ⊢
  split_ifs with h1 h2
  · rfl
  · rfl
  · rw [if_neg h1, if_neg h2] at h
    exact absurd rfl h

set_option maxRecDepth 100000 in
/-- The table keeps its 256 entries through `init`. -/
theorem decTable_length : decTable.length = 256 := by decide

/-- The alphabet has no repeated character. -/
theorem encoding_nodup : encoding.Nodup := by decide

/-! ## Claims (continued) -/

/-- C11. Identifiers sort primarily by time: for two identifiers generated by
`GetUUID` at wall-clock seconds `t1 < t2` with `0 <= t1`, `t2 < 2^32`, the
first is strictly less than the second in lexicographic order of the raw
bytes, whatever the machine bytes, process ids and counters of the two calls. -/
theorem C11_sorts_by_time (t1 t2 : Int) (s1 s2 : State)
    (h0 : 0 ≤ t1) (h12 : t1 < t2) (h2 : t2 < 2 ^ 32) :
    (GetUUID t1 s1).1 < (GetUUID t2 s2).1 := by
  have key :
      byteOfNat (uint32OfInt t1 >>> 24) < byteOfNat (uint32OfInt t2 >>> 24) ∨
      (byteOfNat (uint32OfInt t1 >>> 24) = byteOfNat (uint32OfInt t2 >>> 24) ∧
        (byteOfNat (uint32OfInt t1 >>> 16) < byteOfNat (uint32OfInt t2 >>> 16) ∨
        (byteOfNat (uint32OfInt t1 >>> 16) = byteOfNat (uint32OfInt t2 >>> 16) ∧
          (byteOfNat (uint32OfInt t1 >>> 8) < byteOfNat (uint32OfInt t2 >>> 8) ∨
          (byteOfNat (uint32OfInt t1 >>> 8) = byteOfNat (uint32OfInt t2 >>> 8) ∧
            byteOfNat (uint32OfInt t1) < byteOfNat (uint32OfInt t2)))))) := by
    have e1 : uint32OfInt t1 = t1.toNat := by unfold uint32OfInt; omega
    have e2 : uint32OfInt t2 = t2.toNat := by unfold uint32OfInt; omega
    have hlt : t1.toNat < t2.toNat := by omega
    have hb : t2.toNat < 2 ^ 32 := by omega
    rw [e1, e2]
    generalize t1.toNat = a at hlt
    generalize t2.toNat = b at hlt hb
    simp only [byteOfNat, Nat.shiftRight_eq_div_pow]
    by_cases c0 : a / 2 ^ 24 = b / 2 ^ 24
    · by_cases c1 : a / 2 ^ 16 = b / 2 ^ 16
      · by_cases c2 : a / 2 ^ 8 = b / 2 ^ 8
        · right; refine ⟨by omega, ?_⟩; right; refine ⟨by omega, ?_⟩; right
          exact ⟨by omega, by omega⟩
        · right; refine ⟨by omega, ?_⟩; right; refine ⟨by omega, ?_⟩; left; omega
      · right; refine ⟨by omega, ?_⟩; left; omega
    · left; omega
  rw [GetUUID_fst, GetUUID_fst]
  simp only [cons_lt_cons_iff]
  rcases key with h | ⟨e0, h | ⟨e1, h | ⟨e2, h⟩⟩⟩
  · exact Or.inl h
  · exact Or.inr ⟨e0, Or.inl h⟩
  · exact Or.inr ⟨e0, Or.inr ⟨e1, Or.inl h⟩⟩
  · exact Or.inr ⟨e0, Or.inr ⟨e1, Or.inr ⟨e2, Or.inl h⟩⟩⟩

/-- C11 at two consecutive seconds, the earlier call with the larger machine
bytes, process id and counter. -/
theorem C11_sorts_by_time_witness :
    (GetUUID 1700000000 ⟨16777215, [255, 255, 255], 65535⟩).1
      < (GetUUID 1700000001 ⟨0, [0, 0, 0], 0⟩).1 :=
  C11_sorts_by_time 1700000000 1700000001 ⟨16777215, [255, 255, 255], 65535⟩ ⟨0, [0, 0, 0], 0⟩
    (by norm_num) (by norm_num) (by norm_num)

/-- C12. Storage scan dispatch: for every value `v`, `UUIDScan(v)` behaves
exactly as `UnmarshalText` on the bytes of `v` when `v` is a string or a byte
slice (so `UUIDScan("")` fails with `ErrInvalidID`), and when `v` is of any
other type (for instance the integer 42) it returns a type-mismatch error that
is neither `ErrInvalidID` nor nil. -/
theorem C12_scan_dispatch (id : ID) (v : Value) :
    (∀ s, v = Value.str s → UUIDScan id v = UnmarshalText id s) ∧
      (∀ b, v = Value.bytes b → UUIDScan id v = UnmarshalText id b) ∧
      ((∀ s, v ≠ Value.str s) → (∀ b, v ≠ Value.bytes b) →
        (UUIDScan id v).2 = some Error.unsupportedType ∧
        (UUIDScan id v).2 ≠ some Error.ErrInvalidID ∧ (UUIDScan id v).2 ≠ none) ∧
      (UUIDScan id (Value.str [])).2 = some Error.ErrInvalidID ∧
      (UUIDScan id (Value.int 42)).2 = some Error.unsupportedType := by
  refine ⟨?_, ?_, ?_, rfl, rfl⟩
  · rintro s rfl; rfl
  · rintro b rfl; rfl
  · intro hs hb
    cases v with
    | str s => exact absurd rfl (hs s)
    | bytes b => exact absurd rfl (hb b)
    | int n => exact ⟨rfl, by simp [UUIDScan], by simp [UUIDScan]⟩
    | other n => exact ⟨rfl, by simp [UUIDScan], by simp [UUIDScan]⟩

/-- C12 at the integer 42 scanned into the zero identifier. -/
theorem C12_scan_dispatch_witness :
    (UUIDScan zeroID (Value.int 42)).2 = some Error.unsupportedType ∧
      (UUIDScan zeroID (Value.int 42)).2 ≠ some Error.ErrInvalidID ∧
      (UUIDScan zeroID (Value.int 42)).2 ≠ none :=
  (C12_scan_dispatch zeroID (Value.int 42)).2.2.1 (fun _ h => by cases h) (fun _ h => by cases h)

/-- C13. Storage round trip: for every 12-byte identifier `id`, `UUIDValue()`
returns a nil error and a string value equal to `id.UUIDToString()`, and
`UUIDScan` of that value into any identifier `r`, whatever its previous
contents, succeeds and leaves it equal to `id`. -/
theorem C13_storage_round_trip (id r : ID) (h : ID.wf id) :
    UUIDValue id = (Value.str (UUIDToString id), none) ∧
      UUIDScan r (UUIDValue id).1 = (id, none) := by
  refine ⟨rfl, ?_⟩
  simp only [UUIDValue, MarshalText, UUIDScan]
  exact UnmarshalText_encode r id h

/-- C13 at the identifier of the specification's example, scanned into a
receiver that holds other bytes. -/
theorem C13_storage_round_trip_witness :
    ID.wf [0, 0, 0, 1, 2, 3, 4, 0, 5, 0, 0, 6] ∧
      UUIDScan [9, 9, 9, 9, 9, 9, 9, 9, 9, 9, 9, 9]
        (UUIDValue [0, 0, 0, 1, 2, 3, 4, 0, 5, 0, 0, 6]).1
        = ([0, 0, 0, 1, 2, 3, 4, 0, 5, 0, 0, 6], none) :=
  ⟨by decide, (C13_storage_round_trip _ _ (by decide)).2⟩

/-- C15. Decode equals the inverse bit grouping: for every 20-character
string `s` over the alphabet, with `v_k` the alphabet index of `s[k]`, the
identifier returned by `UUIDFromString(s)` is the first 96 bits (twelve bytes,
most significant bit first) of the concatenation `v_0 v_1 ... v_19` of 5-bit
groups; the low four bits of `v_19` do not influence the result: a text that
agrees with `s` on the first nineteen characters and on the top bit of the
last index parses to the same identifier. -/
theorem C15_decode_reference (s : List Nat) (hl : s.length = 20)
    (hs : ∀ c ∈ s, c ∈ encoding) :
    UUIDFromString s = ((List.range 12).map (refByte (s.map alphabetIndex)), none) ∧
      ∀ s' : List Nat, s'.length = 20 → (∀ c ∈ s', c ∈ encoding) →
        s'.take 19 = s.take 19 →
        alphabetIndex (at_ s' 19) / 16 = alphabetIndex (at_ s 19) / 16 →
        UUIDFromString s' = UUIDFromString s := by
  obtain ⟨e, hv⟩ := text_index s hs
  have hvl : (s.map alphabetIndex).length = 20 := by simpa using hl
  constructor
  · rw [UUIDFromString_valid s hl hs]
    have hd : decode s = (List.range 12).map (refByte (s.map alphabetIndex)) := by
      generalize s.map alphabetIndex = v at e hv hvl
      obtain ⟨v0, v1, v2, v3, v4, v5, v6, v7, v8, v9, v10, v11, v12, v13, v14, v15,
        v16, v17, v18, v19, rfl, h0, h1, h2, h3, h4, h5, h6, h7, h8, h9, h10, h11, h12, h13,
        h14, h15, h16, h17, h18, h19⟩ := idx_cases v hvl hv
      rw [e, decode_arith v0 v1 v2 v3 v4 v5 v6 v7 v8 v9 v10 v11 v12 v13 v14 v15 v16 v17 v18 v19
          h0 h1 h2 h3 h4 h5 h6 h7 h8 h9 h10 h11 h12 h13 h14 h15 h16 h17 h18 h19,
        refByte_arith v0 v1 v2 v3 v4 v5 v6 v7 v8 v9 v10 v11 v12 v13 v14 v15 v16 v17 v18 v19
          h0 h1 h2 h3 h4 h5 h6 h7 h8 h9 h10 h11 h12 h13 h14 h15 h16 h17 h18 h19]
    rw [hd]
  · intro s' hl' hs' htake htop
    obtain ⟨e', hv'⟩ := text_index s' hs'
    have hvl' : (s'.map alphabetIndex).length = 20 := by simpa using hl'
    rw [UUIDFromString_valid s hl hs, UUIDFromString_valid s' hl' hs']
    have hd : decode ((s'.map alphabetIndex).map enc) = decode ((s.map alphabetIndex).map enc) := by
      rw [decode_eq_iff _ _ hvl' hv' hvl hv, ← List.map_take, ← List.map_take, htake,
        at_map_19 _ s' hl', at_map_19 _ s hl]
      exact ⟨rfl, htop⟩
    rw [← e, ← e'] at hd
    rw [hd]

/-- C15 at the text `000000820c2001800030` and its variant ending in `v`. -/
theorem C15_decode_reference_witness :
    UUIDFromString [48, 48, 48, 48, 48, 48, 56, 50, 48, 99, 50, 48, 48, 49, 56, 48, 48, 48, 51, 102]
      = UUIDFromString
        [48, 48, 48, 48, 48, 48, 56, 50, 48, 99, 50, 48, 48, 49, 56, 48, 48, 48, 51, 48] :=
  (C15_decode_reference
    [48, 48, 48, 48, 48, 48, 56, 50, 48, 99, 50, 48, 48, 49, 56, 48, 48, 48, 51, 48]
    (by decide) (by decide)).2
    [48, 48, 48, 48, 48, 48, 56, 50, 48, 99, 50, 48, 48, 49, 56, 48, 48, 48, 51, 102]
    (by decide) (by decide) (by decide) (by decide)

/-- C16, as stated, fails: from the stored value `2^24 - 1` (the seed that
`randInt` assembles from the bytes `ff ff ff`) a `GetUUID` call stores
`2^24`, not `(2^24 - 1 + 1) mod 2^24 = 0`. -/
theorem C16_stored_counter_counterexample :
    ¬ (∀ (t : Int) (s : State), s.objectIDCounter < 2 ^ 24 →
        (GetUUID t s).2.objectIDCounter = (s.objectIDCounter + 1) % 2 ^ 24) := by
  intro hall
  have h := hall 0 ⟨2 ^ 24 - 1, [1, 2, 3], 7⟩ (by norm_num)
  rw [GetUUID_snd] at h
  norm_num at h

/-- C16, amended. The shared counter `objectIDCounter` is below `2^24` after
initialisation (`randInt` assembles three random bytes big-endian), and after
every `GetUUID` call its new value equals `(previous value + 1) mod 2^32`;
this is `(previous value + 1) mod 2^24` as long as `previous value + 1 < 2^24`,
and the counter field written into the identifier is always the new value
modulo `2^24`. -/
theorem C16_stored_counter_amended (b : List Nat) (hl : b.length = 3) (hb : isBytes b)
    (t : Int) (s : State) :
    (∃ n, randInt (some b) = some n ∧ n = at_ b 0 * 65536 + at_ b 1 * 256 + at_ b 2 ∧
        n < 2 ^ 24) ∧
      (GetUUID t s).2.objectIDCounter = (s.objectIDCounter + 1) % 2 ^ 32 ∧
      (s.objectIDCounter + 1 < 2 ^ 24 →
        (GetUUID t s).2.objectIDCounter = (s.objectIDCounter + 1) % 2 ^ 24) ∧
      UUIDCounter (GetUUID t s).1 = (((GetUUID t s).2.objectIDCounter % 2 ^ 24 : Nat) : Int) := by
  obtain ⟨x, t0, rfl, l0⟩ := cons_of_length_succ hl
  obtain ⟨y, t1, rfl, l1⟩ := cons_of_length_succ l0
  obtain ⟨z, t2, rfl, l2⟩ := cons_of_length_succ l1
  obtain rfl := List.length_eq_zero.mp l2
  have hx : x < 256 := hb x (by simp)
  have hy : y < 256 := hb y (by simp)
  have hz : z < 256 := hb z (by simp)
  refine ⟨⟨x * 65536 + y * 256 + z, ?_, ?_, ?_⟩, rfl, ?_, ?_⟩
  · simp only [randInt, at_zero, at_succ, randInt_arith x y z hx hy hz]
  · simp only [at_zero, at_succ]
  · omega
  · intro h
    rw [GetUUID_snd]
    simp only
    omega
  · rw [UUIDCounter_GetUUID, GetUUID_snd]
    simp only
    omega

/-- C16 (amended) at the seed bytes `ff ff ff` and the state they initialise. -/
theorem C16_stored_counter_amended_witness :
    (∃ n, randInt (some [255, 255, 255]) = some n ∧
        n = at_ [255, 255, 255] 0 * 65536 + at_ [255, 255, 255] 1 * 256
          + at_ [255, 255, 255] 2 ∧ n < 2 ^ 24) ∧
      (GetUUID 0 ⟨2 ^ 24 - 1, [1, 2, 3], 7⟩).2.objectIDCounter = (2 ^ 24 - 1 + 1) % 2 ^ 32 :=
  ⟨(C16_stored_counter_amended [255, 255, 255] rfl (by decide) 0
      ⟨2 ^ 24 - 1, [1, 2, 3], 7⟩).1,
    (C16_stored_counter_amended [255, 255, 255] rfl (by decide) 0
      ⟨2 ^ 24 - 1, [1, 2, 3], 7⟩).2.1⟩

/-- C17. Generator frame: each `GetUUID` call advances the shared counter by
exactly one increment and changes nothing else in the package state: the
cached machine fingerprint and the cached process id are the same before and
after the call, so two identifiers generated in one process (consecutively, or
anywhere in one run of calls) carry identical bytes 4-8. -/
theorem C17_generator_frame (t1 t2 : Int) (s : State) (ts : List Int) :
    (GetUUID t1 s).2 = { s with objectIDCounter := (s.objectIDCounter + 1) % 2 ^ 32 } ∧
      (GetUUID t1 s).2.machineID = s.machineID ∧ (GetUUID t1 s).2.pid = s.pid ∧
      slice (GetUUID t2 (GetUUID t1 s).2).1 4 9 = slice (GetUUID t1 s).1 4 9 ∧
      (GetUUIDs ts s).2.machineID = s.machineID ∧ (GetUUIDs ts s).2.pid = s.pid ∧
      (∀ i j, i < ts.length → j < ts.length →
        slice ((GetUUIDs ts s).1.getD i zeroID) 4 9
          = slice ((GetUUIDs ts s).1.getD j zeroID) 4 9) := by
  refine ⟨GetUUID_snd t1 s, ?_, ?_, ?_, (GetUUIDs_snd ts s).1, (GetUUIDs_snd ts s).2.1, ?_⟩
  · rw [GetUUID_snd]
  · rw [GetUUID_snd]
  · rw [slice48_GetUUID, slice48_GetUUID, GetUUID_snd]
  · intro i j hi hj
    rw [slice48_GetUUIDs ts s i hi, slice48_GetUUIDs ts s j hj]

/-- C17 at a run of three calls at different seconds. -/
theorem C17_generator_frame_witness :
    slice ((GetUUIDs [5, 6, 7] ⟨9, [1, 2, 3], 70000⟩).1.getD 0 zeroID) 4 9
      = slice ((GetUUIDs [5, 6, 7] ⟨9, [1, 2, 3], 70000⟩).1.getD 2 zeroID) 4 9 :=
  (C17_generator_frame 5 6 ⟨9, [1, 2, 3], 70000⟩ [5, 6, 7]).2.2.2.2.2.2 0 2
    (by decide) (by decide)

/-- C18. Canonical text forms: for every 20-character string `s` over the
alphabet, `UUIDFromString(s)` followed by `UUIDToString` returns `s` if and
only if the last character of `s` is `'0'` or `'g'`; every encoder output
ends in `'0'` or `'g'`; and two valid strings parse to the same identifier
exactly when they agree on the first nineteen characters and on the top bit of
the 5-bit value of the last character. -/
theorem C18_canonical_text (s s' : List Nat) (id : ID) (hl : s.length = 20)
    (hs : ∀ c ∈ s, c ∈ encoding) (hl' : s'.length = 20) (hs' : ∀ c ∈ s', c ∈ encoding)
    (hid : ID.wf id) :
    (UUIDToString (UUIDFromString s).1 = s ↔ (at_ s 19 = 48 ∨ at_ s 19 = 103)) ∧
      (at_ (UUIDToString id) 19 = 48 ∨ at_ (UUIDToString id) 19 = 103) ∧
      ((UUIDFromString s).1 = (UUIDFromString s').1 ↔
        s.take 19 = s'.take 19 ∧
          alphabetIndex (at_ s 19) / 16 = alphabetIndex (at_ s' 19) / 16) := by
  refine ⟨?_, ?_, ?_⟩
  · rw [UUIDFromString_valid s hl hs]
    obtain ⟨v, hvl, hvb, rfl⟩ := text_cases s hl hs
    obtain ⟨v0, v1, v2, v3, v4, v5, v6, v7, v8, v9, v10, v11, v12, v13, v14, v15,
      v16, v17, v18, v19, rfl, h0, h1, h2, h3, h4, h5, h6, h7, h8, h9, h10, h11, h12, h13,
      h14, h15, h16, h17, h18, h19⟩ := idx_cases v hvl hvb
    simp only [UUIDToString, encode]
    rw [encodeIdx_decode v0 v1 v2 v3 v4 v5 v6 v7 v8 v9 v10 v11 v12 v13 v14 v15 v16 v17 v18 v19
      h0 h1 h2 h3 h4 h5 h6 h7 h8 h9 h10 h11 h12 h13 h14 h15 h16 h17 h18 h19]
    simp only [List.map_cons, List.map_nil, List.cons.injEq, true_and, and_true, at_zero,
      at_succ]
    have e0 : enc v19 = 48 ↔ v19 = 0 := enc_eq_iff v19 h19 0 (by norm_num)
    have e16 : enc v19 = 103 ↔ v19 = 16 := enc_eq_iff v19 h19 16 (by norm_num)
    rw [enc_eq_iff _ (by omega) v19 h19, e0, e16]
    omega
  · obtain ⟨a0, a1, a2, a3, a4, a5, a6, a7, a8, a9, a10, a11, rfl,
      h0, h1, h2, h3, h4, h5, h6, h7, h8, h9, h10, h11⟩ := wf_cases id hid
    rw [UUIDToString, encode,
      encodeIdx_arith _ _ _ _ _ _ _ _ _ _ _ _ h1 h2 h3 h4 h6 h7 h8 h9 h11]
    simp only [List.map_cons, List.map_nil, at_zero, at_succ]
    rcases Nat.mod_two_eq_zero_or_one a11 with h | h
    · left; rw [h]; rfl
    · right; rw [h]; rfl
  · rw [UUIDFromString_valid s hl hs, UUIDFromString_valid s' hl' hs']
    exact decode_text_eq_iff s s' hl hs hl' hs'

/-- C18 at the canonical text `000000820c2001800030`. -/
theorem C18_canonical_text_witness :
    UUIDToString (UUIDFromString
      [48, 48, 48, 48, 48, 48, 56, 50, 48, 99, 50, 48, 48, 49, 56, 48, 48, 48, 51, 48]).1
      = [48, 48, 48, 48, 48, 48, 56, 50, 48, 99, 50, 48, 48, 49, 56, 48, 48, 48, 51, 48] :=
  (C18_canonical_text
    [48, 48, 48, 48, 48, 48, 56, 50, 48, 99, 50, 48, 48, 49, 56, 48, 48, 48, 51, 48]
    [48, 48, 48, 48, 48, 48, 56, 50, 48, 99, 50, 48, 48, 49, 56, 48, 48, 48, 51, 102]
    [0, 0, 0, 1, 2, 3, 4, 0, 5, 0, 0, 6]
    (by decide) (by decide) (by decide) (by decide) (by decide)).1.2 (Or.inl (by decide))

/-- C19. Failed parse is atomic: whenever `UnmarshalText(text)` or
`UUIDScan(v)` returns a non-nil error, the receiver's bytes are exactly what
they were before the call; consequently `UUIDFromString` on invalid input (a
byte string of the wrong length or with a byte outside the alphabet) returns
the all-zero identifier together with `ErrInvalidID`. -/
theorem C19_failed_parse_atomic (id : ID) (text : List Nat) (v : Value) (s : List Nat) :
    ((UnmarshalText id text).2 ≠ none → (UnmarshalText id text).1 = id) ∧
      ((UUIDScan id v).2 ≠ none → (UUIDScan id v).1 = id) ∧
      ((UUIDFromString s).2 ≠ none →
        UUIDFromString s = ([0, 0, 0, 0, 0, 0, 0, 0, 0, 0, 0, 0], some Error.ErrInvalidID)) ∧
      (isBytes s → (s.length ≠ 20 ∨ ∃ c ∈ s, c ∉ encoding) →
        UUIDFromString s = ([0, 0, 0, 0, 0, 0, 0, 0, 0, 0, 0, 0], some Error.ErrInvalidID)) := by
  have hz : zeroID = [0, 0, 0, 0, 0, 0, 0, 0, 0, 0, 0, 0] := rfl
  refine ⟨?_, ?_, ?_, ?_⟩
  · intro h
    rw [UnmarshalText_fail id text h]
  · intro h
    cases v with
    | str val =>
      have h2 : (UnmarshalText id val).2 ≠ none := h
      exact congrArg Prod.fst (UnmarshalText_fail id val h2)
    | bytes val =>
      have h2 : (UnmarshalText id val).2 ≠ none := h
      exact congrArg Prod.fst (UnmarshalText_fail id val h2)
    | int n => rfl
    | other n => rfl
  · intro h
    rw [← hz]
    exact UnmarshalText_fail zeroID s h
  · intro hb hbad
    rw [← hz]
    apply UnmarshalText_fail zeroID s
    unfold UnmarshalText
    rcases hbad with hlen | hch
    · rw [if_pos (by simpa [encodedLen] using hlen)]
      simp
    · have hv := (hasInvalidChar_iff s hb).2 hch
      split_ifs <;> simp

/-- C19 at the empty string. -/
theorem C19_failed_parse_atomic_witness :
    UUIDFromString [] = ([0, 0, 0, 0, 0, 0, 0, 0, 0, 0, 0, 0], some Error.ErrInvalidID) :=
  (C19_failed_parse_atomic zeroID [] (Value.int 42) []).2.2.2 (by decide)
    (Or.inl (by decide))

/-- C20. Reverse-lookup table correctness: after `init`, for every byte value
`c`, `dec[c] == i` when `c` is the `i`-th character of the 32-character
alphabet (the alphabet has no repeated character, so `i` is unique and
`i < 32`), and `dec[c] == 0xFF` for every byte `c` not in the alphabet. -/
theorem C20_dec_table (c : Nat) (hc : c < 256) :
    encoding.length = 32 ∧ encoding.Nodup ∧ decTable.length = 256 ∧
      (∀ i, i < 32 → c = at_ encoding i → dec c = i) ∧
      (c ∈ encoding →
        ∃ i, i < 32 ∧ c = at_ encoding i ∧ dec c = i ∧
          ∀ j, j < 32 → c = at_ encoding j → j = i) ∧
      (c ∉ encoding → dec c = 0xFF) := by
  refine ⟨rfl, encoding_nodup, decTable_length, ?_, ?_, ?_⟩
  · rintro i hi rfl
    exact dec_enc i hi
  · intro hm
    obtain ⟨i, hi, rfl⟩ := mem_encoding_enc c hm
    refine ⟨i, hi, rfl, dec_enc i hi, ?_⟩
    intro j hj hij
    exact ((enc_eq_iff i hi j hj).1 hij).symm
  · intro hm
    by_contra hd
    exact hm ((dec_valid_iff c hc).1 hd)

/-- C20 at the byte `'g'` (index 16) and at the byte `'w'` (outside the alphabet). -/
theorem C20_dec_table_witness : dec 103 = 16 ∧ dec 119 = 0xFF :=
  ⟨(C20_dec_table 103 (by norm_num)).2.2.2.1 16 (by norm_num) rfl,
    (C20_dec_table 119 (by norm_num)).2.2.2.2.2 (by decide)⟩

end Autils
